import Mathlib

/-!
Shallow embedding of the storage-engine core of the `bustub-private`
repository (buffer pool, LRU-K replacer, extendible hash table, B+Tree
index), together with proofs and refutations of the specification claims.

Conventions used throughout:
* C++ loops become structural recursion or explicit `fuel`.
* Machine integers are modelled as `Nat`/`Int`; page ids are `Int` with
  `INVALID_PAGE_ID = -1`, exactly as `page_id_t` in the source.
* Code paths that are undefined behaviour in the C++ source (failed
  `BUSTUB_ASSERT`, out-of-bounds array reads, dereferencing an invalid
  page) are modelled by returning `none`: such a call has no defined
  result.
* Functions whose implementation is missing from the repository snapshot
  (only headers / callers are present) are modelled from the spec; each
  such definition carries a doc comment starting with
  `Modelled from the spec:`.
-/

set_option maxHeartbeats 1000000

namespace Bustub

/-! ## LRU-K replacer — `src/buffer/lru_k_replacer.cpp` -/

namespace LRUK

/-- One tracked frame of the LRU-K replacer (`LRUEntry`): `t` is the
access-history timestamp list with the most recent access at the head
(the C++ `push_front`), truncated to the `k` most recent accesses;
`evictable` is the eviction flag. -/
structure LRUEntry where
  t : List Nat
  evictable : Bool
deriving DecidableEq, Repr

/-- `LRUKReplacer` state: `data` is the frame table (index = frame id,
`none` = untracked frame), `currentTimestamp` the monotonically
increasing access counter, `currSize` the number of evictable frames. -/
structure Replacer where
  k : Nat
  data : List (Option LRUEntry)
  currentTimestamp : Nat
  currSize : Nat
deriving DecidableEq, Repr

/-- `LRUKReplacer::LRUKReplacer(num_frames, k)`. -/
def mkReplacer (numFrames k : Nat) : Replacer :=
  { k := k, data := List.replicate numFrames none, currentTimestamp := 0, currSize := 0 }

/-- `LRUKReplacer::RecordAccess`: create the entry if absent (with
`evictable = false`), push the current timestamp at the front, trim the
history to `k` entries, bump the timestamp counter.  A frame id out of
range fails the `BUSTUB_ASSERT` (modelled as `none`). -/
def recordAccess (r : Replacer) (fid : Nat) : Option Replacer :=
  if h : fid < r.data.length then
    let e := (r.data.get ⟨fid, h⟩).getD { t := [], evictable := false }
    let t1 := r.currentTimestamp :: e.t
    let t2 := if r.k < t1.length then t1.dropLast else t1
    some { r with
           data := r.data.set fid (some { e with t := t2 }),
           currentTimestamp := r.currentTimestamp + 1 }
  else none

/-- `LRUKReplacer::SetEvictable`: flip the flag and adjust `curr_size`
only on a transition.  Out-of-range frame id fails the assert; a null
entry is dereferenced by the C++ code (undefined behaviour), both
modelled as `none`. -/
def setEvictable (r : Replacer) (fid : Nat) (se : Bool) : Option Replacer :=
  if h : fid < r.data.length then
    match r.data.get ⟨fid, h⟩ with
    | none => none
    | some e =>
      if e.evictable = false ∧ se = true then
        some { r with
               currSize := r.currSize + 1,
               data := r.data.set fid (some { e with evictable := se }) }
      else if e.evictable = true ∧ se = false then
        some { r with
               currSize := r.currSize - 1,
               data := r.data.set fid (some { e with evictable := se }) }
      else some r
  else none

/-- The replacement condition of the selection loop in
`LRUKReplacer::Evict` (lines 37–43): candidate `ei` replaces the current
selection `es` iff
1. both have `k` recorded accesses and `ei`'s oldest stored timestamp
   (`t_.back()`, i.e. the k-th most recent access) is smaller, or
2. `es` has `k` accesses but `ei` has fewer, or
3. both have fewer than `k` accesses and `ei`'s `t_.front()` — its MOST
   RECENT access timestamp — is smaller. -/
def better (k : Nat) (ei es : LRUEntry) : Bool :=
  (decide (es.t.length = k) && decide (ei.t.length = k) &&
     decide (ei.t.getLastD 0 < es.t.getLastD 0)) ||
  (decide (es.t.length = k) && decide (ei.t.length < k)) ||
  (decide (es.t.length < k) && decide (ei.t.length < k) &&
     decide (ei.t.headD 0 < es.t.headD 0))

/-- One step of the selection loop of `LRUKReplacer::Evict`: skip
untracked or non-evictable frames, take the first evictable frame,
afterwards replace the selection whenever `better` holds. -/
def selStep (k : Nat) (sel : Option (Nat × LRUEntry)) (p : Nat × Option LRUEntry) :
    Option (Nat × LRUEntry) :=
  match p.2 with
  | none => sel
  | some e =>
    if e.evictable then
      match sel with
      | none => some (p.1, e)
      | some (s, es) => if better k e es then some (p.1, e) else some (s, es)
    else sel

/-- The selection loop of `LRUKReplacer::Evict` (lines 26–45): scan all
frames in index order.  Returns the selected frame id and its entry. -/
def evictSelect (k : Nat) (data : List (Option LRUEntry)) : Option (Nat × LRUEntry) :=
  data.enum.foldl (selStep k) none

/-- `LRUKReplacer::Evict`: returns `some (none, r)` when `curr_size == 0`
(the C++ `return false`), `some (some fid, r')` on successful eviction
(entry dropped via `RemoveInternal`), and `none` when the state is
inconsistent (no evictable frame found although `curr_size != 0`, in
which case `RemoveInternal(-1)` fails its assert). -/
def evict (r : Replacer) : Option (Option Nat × Replacer) :=
  if r.currSize = 0 then some (none, r)
  else
    match evictSelect r.k r.data with
    | none => none
    | some (f, _) =>
      some (some f, { r with data := r.data.set f none, currSize := r.currSize - 1 })

/-- `LRUKReplacer::Remove` / `RemoveInternal`: no-op on an untracked
frame; dropping a non-evictable frame fails the assert (`none`). -/
def removeFrame (r : Replacer) (fid : Nat) : Option Replacer :=
  if h : fid < r.data.length then
    match r.data.get ⟨fid, h⟩ with
    | none => some r
    | some e =>
      if e.evictable then
        some { r with data := r.data.set fid none, currSize := r.currSize - 1 }
      else none
  else none

/-- `LRUKReplacer::Size`. -/
def size (r : Replacer) : Nat := r.currSize

end LRUK

/-! ## Extendible hash table — `src/container/hash/extendible_hash_table.cpp` -/

namespace EHash

/-- `ExtendibleHashTable::Bucket`: `capacity` is the C++ `size_` (the
`array_size` constructor argument), `depth` the local depth, `items` the
stored pairs in insertion order (the C++ `std::list`). -/
structure Bucket (K V : Type) where
  capacity : Nat
  depth : Nat
  items : List (K × V)
deriving DecidableEq, Repr

/-- `ExtendibleHashTable` state.  The C++ directory holds `shared_ptr`s;
we model bucket identity by a `Nat` id: `dir` lists bucket ids and
`store` resolves an id to the bucket contents.  `hash` stands for
`std::hash<K>` (unspecified by the standard, hence a parameter). -/
structure Table (K V : Type) where
  hash : K → Nat
  globalDepth : Nat
  bucketSize : Nat
  numBuckets : Nat
  dir : List Nat
  store : Nat → Bucket K V
  nextBucketId : Nat

/-- `ExtendibleHashTable::ExtendibleHashTable(bucket_size)`: global depth
0, one empty bucket of local depth 0. -/
def mkTable (hash : K → Nat) (bucketSize : Nat) : Table K V :=
  { hash := hash
    globalDepth := 0
    bucketSize := bucketSize
    numBuckets := 1
    dir := [0]
    store := fun _ => { capacity := bucketSize, depth := 0, items := [] }
    nextBucketId := 1 }

/-- `IndexOf(key) = hash(key) & ((1 << global_depth) - 1)`; masking by
`2^g − 1` is reduction mod `2^g`. -/
def indexOf (t : Table K V) (k : K) : Nat := t.hash k % 2 ^ t.globalDepth

/-- The scan of `Bucket::Find`. -/
def findPair [DecidableEq K] (k : K) : List (K × V) → Option V
  | [] => none
  | (k0, v0) :: rest => if k0 = k then some v0 else findPair k rest

/-- The scan-and-erase of `Bucket::Remove`; `none` means the key was not
present (the C++ `return false`). -/
def removePair [DecidableEq K] (k : K) : List (K × V) → Option (List (K × V))
  | [] => none
  | (k0, v0) :: rest =>
    if k0 = k then some rest else (removePair k rest).map ((k0, v0) :: ·)

/-- The scan-and-overwrite in `Bucket::Insert`; `none` means the key was
not present. -/
def updatePair [DecidableEq K] (k : K) (v : V) : List (K × V) → Option (List (K × V))
  | [] => none
  | (k0, v0) :: rest =>
    if k0 = k then some ((k0, v) :: rest)
    else (updatePair k v rest).map ((k0, v0) :: ·)

/-- `Bucket::Insert`: fails (`none`) when the bucket is full — note the
`IsFull()` test comes FIRST, before the existing-key scan — otherwise
overwrites an existing key or appends at the back.  `IsFull` itself is
only declared in the missing header; modelled from the spec: a "bounded
list of `(K,V)` pairs of capacity `bucket_size`", i.e. full iff
`items.length ≥ capacity`. -/
def bucketInsert [DecidableEq K] (b : Bucket K V) (k : K) (v : V) : Option (Bucket K V) :=
  if b.capacity ≤ b.items.length then none
  else
    match updatePair k v b.items with
    | some items' => some { b with items := items' }
    | none => some { b with items := b.items ++ [(k, v)] }

/-- Functional update of one bucket in the store. -/
def setStore (t : Table K V) (bid : Nat) (b : Bucket K V) : Table K V :=
  { t with store := fun i => if i = bid then b else t.store i }

/-- `ExtendibleHashTable::Find`.  The outer `none` is the undefined
out-of-range directory access; the inner option is the C++ result. -/
def find [DecidableEq K] (t : Table K V) (k : K) : Option (Option V) :=
  match t.dir.get? (indexOf t k) with
  | none => none
  | some bid => some (findPair k (t.store bid).items)

/-- `ExtendibleHashTable::Remove`. -/
def remove [DecidableEq K] (t : Table K V) (k : K) : Option (Bool × Table K V) :=
  match t.dir.get? (indexOf t k) with
  | none => none
  | some bid =>
    match removePair k (t.store bid).items with
    | none => some (false, t)
    | some items' => some (true, setStore t bid { t.store bid with items := items' })

/-- `ExtendibleHashTable::RedistributeBucket`: re-insert every item of
the split bucket through the directory; the return value of
`Bucket::Insert` is ignored by the C++ code, so a failed insert drops
nothing from the new buckets and the item list is left as re-hashed. -/
def redistribute [DecidableEq K] (t : Table K V) : List (K × V) → Option (Table K V)
  | [] => some t
  | (k, v) :: rest =>
    match t.dir.get? (indexOf t k) with
    | none => none
    | some bid =>
      match bucketInsert (t.store bid) k v with
      | none => redistribute t rest
      | some b' => redistribute (setStore t bid b') rest

/-- The `while (true)` loop of `ExtendibleHashTable::Insert`, with fuel.
One iteration: try the bucket insert; on overflow double the directory
if `local_depth == global_depth`, allocate the two sibling buckets `a`
(directory slots whose bit `d` is set) and `b` (bit clear), redirect all
slots aliasing the old bucket, bump `num_buckets`, redistribute the old
bucket's items, and retry.  `none` models both fuel exhaustion (the C++
loop can run forever) and undefined directory accesses. -/
def insertGo [DecidableEq K] : Nat → Table K V → K → V → Option (Table K V)
  | 0, _, _, _ => none
  | fuel + 1, t, k, v =>
    let idx := indexOf t k
    match t.dir.get? idx with
    | none => none
    | some bid =>
      let b := t.store bid
      match bucketInsert b k v with
      | some b' => some (setStore t bid b')
      | none =>
        let d := b.depth
        let t1 :=
          if d = t.globalDepth then
            { t with globalDepth := t.globalDepth + 1, dir := t.dir ++ t.dir }
          else t
        if t1.dir.length = 2 ^ t1.globalDepth then
          let aId := t1.nextBucketId
          let bId := t1.nextBucketId + 1
          let dir' := (List.range (2 ^ t1.globalDepth)).map fun i =>
            if i % 2 ^ d = idx % 2 ^ d then (if i.testBit d then aId else bId)
            else t1.dir.getD i 0
          let t2 : Table K V :=
            { t1 with
              dir := dir'
              store := fun i =>
                if i = aId then { capacity := t.bucketSize, depth := d + 1, items := [] }
                else if i = bId then { capacity := t.bucketSize, depth := d + 1, items := [] }
                else t1.store i
              nextBucketId := t1.nextBucketId + 2
              numBuckets := t1.numBuckets + 1 }
          match redistribute t2 b.items with
          | none => none
          | some t3 => insertGo fuel t3 k v
        else none

/-- The directory invariant of the extendible hash table (spec §3
"Hash directory" / §8 invariant 6): the directory length is
`2^global_depth`; every bucket reachable from the directory has
`local_depth ≤ global_depth`; any two directory indices that agree on
the low `local_depth` bits of the bucket the first one points to alias
the same bucket.  The last clause (`freshness`) records that directory
entries only mention already-allocated bucket ids; it is the model
counterpart of the C++ `shared_ptr` identities being distinct from
yet-unallocated buckets. -/
def Inv (t : Table K V) : Prop :=
  t.dir.length = 2 ^ t.globalDepth ∧
  (∀ i, i < t.dir.length → (t.store (t.dir.getD i 0)).depth ≤ t.globalDepth) ∧
  (∀ i j, i < t.dir.length → j < t.dir.length →
    i % 2 ^ (t.store (t.dir.getD i 0)).depth = j % 2 ^ (t.store (t.dir.getD i 0)).depth →
    t.dir.getD i 0 = t.dir.getD j 0) ∧
  (∀ i, i < t.dir.length → t.dir.getD i 0 < t.nextBucketId)

/-- Table states reachable from the constructor by `Insert` / `Remove`
calls that terminate (an `insertGo` that returns `some` for some fuel is
exactly a terminating run of the C++ `while (true)` loop). -/
inductive Reachable [DecidableEq K] (hash : K → Nat) (bucketSize : Nat) :
    Table K V → Prop
  | init : Reachable hash bucketSize (mkTable hash bucketSize)
  | ins {t t' : Table K V} {fuel : Nat} {k : K} {v : V} :
      Reachable hash bucketSize t → insertGo fuel t k v = some t' →
      Reachable hash bucketSize t'
  | rem {t t' : Table K V} {b : Bool} {k : K} :
      Reachable hash bucketSize t → remove t k = some (b, t') →
      Reachable hash bucketSize t'

end EHash

/-! ## Buffer pool manager — `src/buffer/buffer_pool_manager_instance.cpp` -/

namespace BPool

/-- One frame's `Page` object: identity, pin count, dirty flag, and the
page bytes abstracted to a single `Nat` token (`data_`). -/
structure Page where
  pageId : Int
  pinCount : Nat
  isDirty : Bool
  data : Nat
deriving DecidableEq, Repr

/-- `BufferPoolManagerInstance` state.  `pages` is the frame array,
`pageTable` the extendible hash table mapping `page_id → frame_id`,
`freeList` the free frame list, `nextPageId` the monotonic allocation
counter.  The synchronous `DiskManager` is modelled by `disk` (current
page contents, a fresh page reads as `0`) plus `diskWrites`, the ordered
log of every `WritePage(page_id, data)` call issued. -/
structure BPM where
  poolSize : Nat
  pages : List Page
  pageTable : EHash.Table Int Nat
  replacer : LRUK.Replacer
  freeList : List Nat
  nextPageId : Int
  disk : Int → Nat
  diskWrites : List (Int × Nat)

/-- `BufferPoolManagerInstance` constructor: all frames hold the
default-constructed `Page` (`page_id = INVALID_PAGE_ID`, pin 0, clean),
every frame is on the free list, the page table and replacer are empty.
`hash` stands for `std::hash<page_id_t>` and `bucketSize` for the
`bucket_size_` member used to build the page table. -/
def mkBPM (poolSize : Nat) (hash : Int → Nat) (bucketSize replacerK : Nat) : BPM :=
  { poolSize := poolSize
    pages := List.replicate poolSize { pageId := -1, pinCount := 0, isDirty := false, data := 0 }
    pageTable := EHash.mkTable hash bucketSize
    replacer := LRUK.mkReplacer poolSize replacerK
    freeList := List.range poolSize
    nextPageId := 0
    disk := fun _ => 0
    diskWrites := [] }

/-- `DiskManager::WritePage`: append to the write log and update the
disk contents. -/
def writePage (m : BPM) (pid : Int) (d : Nat) : BPM :=
  { m with
    diskWrites := m.diskWrites ++ [(pid, d)]
    disk := fun p => if p = pid then d else m.disk p }

/-- `BufferPoolManagerInstance::AllocatePage`: `return next_page_id_++`. -/
def allocatePage (m : BPM) : Int × BPM :=
  (m.nextPageId, { m with nextPageId := m.nextPageId + 1 })

/-- `BufferPoolManagerInstance::UnpinPgImp`: returns `false` when the
page is not in the page table or its pin count is already 0; otherwise
decrements the pin count, marks the frame evictable when the count
reaches 0, and ORs the dirty flag (`if (is_dirty) ... = is_dirty`).
`none` models the undefined accesses (frame id out of range, replacer
entry missing). -/
def unpinPage (m : BPM) (pid : Int) (isDirty : Bool) : Option (Bool × BPM) :=
  match EHash.find m.pageTable pid with
  | none => none
  | some none => some (false, m)
  | some (some f) =>
    match m.pages.get? f with
    | none => none
    | some pg =>
      if pg.pinCount = 0 then some (false, m)
      else
        let pg1 : Page := { pg with pinCount := pg.pinCount - 1 }
        let m1 : BPM := { m with pages := m.pages.set f pg1 }
        let step2 : Option BPM :=
          if pg1.pinCount = 0 then
            (LRUK.setEvictable m1.replacer f true).map fun r => { m1 with replacer := r }
          else some m1
        match step2 with
        | none => none
        | some m2 =>
          let m3 : BPM :=
            if isDirty then { m2 with pages := m2.pages.set f { pg1 with isDirty := true } }
            else m2
          some (true, m3)

/-- `BufferPoolManagerInstance::FlushAllPgsImp`: for EVERY frame `f` of
the pool — resident or not — issue `WritePage(pages_[f].GetPageId(),
pages_[f].GetData())` and clear the frame's dirty flag.  There is no
residency check, so free frames are written under `INVALID_PAGE_ID`. -/
def flushAllPages (m : BPM) : BPM :=
  let m1 := m.pages.foldl (fun acc pg => writePage acc pg.pageId pg.data) m
  { m1 with pages := m1.pages.map fun pg => { pg with isDirty := false } }

/-- `BufferPoolManagerInstance::NewPgImp`: allocate the new page id
FIRST (`AllocatePage()` on line 43), then look for a frame: prefer the
free list, otherwise evict (returning `nullptr`, here `none` in the
result pair, when the replacer has no victim); write back a dirty
victim, rebind the frame in the page table, read the backing disk bytes,
pin the frame.  The `fuel` feeds the page-table `Insert` loop. -/
def newPage (fuel : Nat) (m : BPM) : Option (Option (Int × Nat) × BPM) :=
  let (newPid, m0) := allocatePage m
  let framePick : Option (Option (Nat × BPM)) :=
    match m0.freeList with
    | f :: rest => some (some (f, { m0 with freeList := rest }))
    | [] =>
      match LRUK.evict m0.replacer with
      | none => none
      | some (none, _r) => some none  -- no victim: NewPgImp returns nullptr
      | some (some f, r) =>
        let m1 : BPM := { m0 with replacer := r }
        match m1.pages.get? f with
        | none => none
        | some victim =>
          match EHash.remove m1.pageTable victim.pageId with
          | none => none
          | some (_, tbl) =>
            let m2 : BPM := { m1 with pageTable := tbl }
            let m3 : BPM := if victim.isDirty then writePage m2 victim.pageId victim.data else m2
            some (some (f, m3))
  match framePick with
  | none => none
  | some none => some (none, m0)
  | some (some (f, m4)) =>
    match m4.pages.get? f with
    | none => none
    | some _ =>
      match EHash.insertGo fuel m4.pageTable newPid f with
      | none => none
      | some tbl =>
        let m5 : BPM :=
          { m4 with
            pageTable := tbl
            pages := m4.pages.set f
              { pageId := newPid, pinCount := 1, isDirty := false, data := m4.disk newPid } }
        match LRUK.recordAccess m5.replacer f with
        | none => none
        | some r1 =>
          match LRUK.setEvictable r1 f false with
          | none => none
          | some r2 => some (some (newPid, f), { m5 with replacer := r2 })

end BPool

/-! ## B+Tree index — `src/storage/index/b_plus_tree.cpp`,
`src/storage/page/b_plus_tree_leaf_page.cpp`,
`src/storage/index/index_iterator.cpp`

Keys are modelled as `Int` (the comparator instantiated with integer
order, as the repository's integer-key test harness does) and values as
`Nat` (an abstract `RID`).  The buffer pool is abstracted to an ideal
page arena `Pid → Option Node`: `FetchPage` of a present page always
succeeds, `NewPage` always finds a frame (the tree code `BUSTUB_ASSERT`s
on allocation failure anyway), and pin counts are not tracked except
where a claim mentions them.  Fetching an absent or invalid page id —
which in the C++ code reads garbage bytes and reinterprets them as a
tree page — is modelled as `none` (no defined result). -/

namespace BPT

abbrev Pid := Int

/-- `INVALID_PAGE_ID`. -/
def INVALID_PID : Pid := -1

/-- `BPlusTreeLeafPage`: parent pointer, leaf-chain successor
(`next_page_id_`), `max_size`, and the sorted `(key, value)` array. -/
structure LeafNode where
  parent : Pid
  next : Pid
  maxSize : Nat
  entries : List (Int × Nat)
deriving DecidableEq, Repr

/-- `BPlusTreeInternalPage`: parent pointer, `max_size`, the value-only
slot 0 (`x`, the leftmost child) and the `(key, child)` slots `1 ..
size-1`.  `GetSize()` of the C++ page counts slot 0, i.e. it equals
`entries.length + 1`. -/
structure InternalNode where
  parent : Pid
  maxSize : Nat
  x : Pid
  entries : List (Int × Pid)
deriving DecidableEq, Repr

/-- A tree page is a tagged variant (the `page_type` header field). -/
inductive Node where
  | leaf : LeafNode → Node
  | internal : InternalNode → Node
deriving DecidableEq, Repr

/-- `BPlusTree` state: the persisted root id (`root_page_id_`, mirrored
in the header page by `UpdateRootPageId`), the page arena standing for
the buffer pool + disk, and the allocation counter for `NewPage`. -/
structure Tree where
  rootPid : Pid
  arena : Pid → Option Node
  nextPid : Pid
  leafMax : Nat
  internalMax : Nat

/-- A freshly constructed `BPlusTree`: empty arena,
`root_page_id_ = INVALID_PAGE_ID`.  Page ids are handed out from 1
(page 0 is the reserved header page). -/
def initTree (leafMax internalMax : Nat) : Tree :=
  { rootPid := INVALID_PID
    arena := fun _ => none
    nextPid := 1
    leafMax := leafMax
    internalMax := internalMax }

def setNode (t : Tree) (p : Pid) (n : Node) : Tree :=
  { t with arena := fun q => if q = p then some n else t.arena q }

def delNode (t : Tree) (p : Pid) : Tree :=
  { t with arena := fun q => if q = p then none else t.arena q }

/-- Modelled from the spec: `GetMinSize` lives in the missing
`b_plus_tree_page.cpp`; §3 invariant (a) and §4.4 fix
`min_size = ceil(max_size / 2)`. -/
def minSizeOf (maxSize : Nat) : Nat := (maxSize + 1) / 2

def nodeParent : Node → Pid
  | .leaf ln => ln.parent
  | .internal n => n.parent

def setParent : Node → Pid → Node
  | .leaf ln, p => .leaf { ln with parent := p }
  | .internal n, p => .internal { n with parent := p }

/-! ### Leaf page operations (`b_plus_tree_leaf_page.cpp`) -/

/-- `B_PLUS_TREE_LEAF_PAGE_TYPE::Lookup`: linear scan with early exit on
the first larger key. -/
def leafLookup (k : Int) : List (Int × Nat) → Option Nat
  | [] => none
  | (k0, v0) :: rest =>
    if k0 = k then some v0 else if k0 > k then none else leafLookup k rest

/-- `B_PLUS_TREE_LEAF_PAGE_TYPE::Insert`: find the first strictly larger
key, shift, insert; an equal key leaves the page unchanged. -/
def leafInsert (k : Int) (v : Nat) : List (Int × Nat) → List (Int × Nat)
  | [] => [(k, v)]
  | (k0, v0) :: rest =>
    if k0 = k then (k0, v0) :: rest
    else if k0 > k then (k, v) :: (k0, v0) :: rest
    else (k0, v0) :: leafInsert k v rest

/-- `B_PLUS_TREE_LEAF_PAGE_TYPE::RemoveAndDeleteRecord`: erase the match
if present, early exit on the first larger key. -/
def leafRemove (k : Int) : List (Int × Nat) → List (Int × Nat)
  | [] => []
  | (k0, v0) :: rest =>
    if k0 = k then rest
    else if k0 > k then (k0, v0) :: rest
    else (k0, v0) :: leafRemove k rest

/-- The loop of `B_PLUS_TREE_LEAF_PAGE_TYPE::KeyIndex` carrying the
running index `i`; note the final `return 0` (not `GetSize()`) when no
key is `≥ k`. -/
def keyIndexGo (k : Int) (i : Nat) : List (Int × Nat) → Nat
  | [] => 0
  | (k0, _) :: rest => if k0 ≥ k then i else keyIndexGo k (i + 1) rest

/-- `B_PLUS_TREE_LEAF_PAGE_TYPE::KeyIndex`. -/
def keyIndex (k : Int) (es : List (Int × Nat)) : Nat := keyIndexGo k 0 es

/-! ### Internal page operations.

`b_plus_tree_internal_page.cpp` is not part of the repository snapshot
(only its callers in `b_plus_tree.cpp` are), so every operation below is
modelled from the spec, §3 "B+Tree nodes" and §4.4. -/

/-- Modelled from the spec: internal-page `Lookup` routing — slot `i`'s
child covers keys in `[key_i, key_{i+1})`, slot 0 covers everything
below `key_1` — so descend into the child of the last slot whose key is
`≤ k`. -/
def internalLookupGo (k : Int) (acc : Pid) : List (Int × Pid) → Pid
  | [] => acc
  | (k0, p0) :: rest => if k ≥ k0 then internalLookupGo k p0 rest else acc

def internalLookup (k : Int) (n : InternalNode) : Pid :=
  internalLookupGo k n.x n.entries

def internalSize (n : InternalNode) : Nat := n.entries.length + 1

/-- Modelled from the spec: `ValueIndex` — the slot index holding the
given child pointer (slot 0 is the value-only slot); an absent child is
an out-of-contract lookup, modelled `none`. -/
def valueIndexGo (p : Pid) (i : Nat) : List (Int × Pid) → Option Nat
  | [] => none
  | (_, q) :: rest => if q = p then some i else valueIndexGo p (i + 1) rest

def valueIndex (n : InternalNode) (p : Pid) : Option Nat :=
  if n.x = p then some 0 else valueIndexGo p 1 n.entries

/-- Modelled from the spec: `ValueAt` — the child pointer of slot `i`. -/
def valueAt (n : InternalNode) (i : Nat) : Option Pid :=
  if i = 0 then some n.x else (n.entries.get? (i - 1)).map Prod.snd

/-- Modelled from the spec: `ItemAt` — the `(key, child)` pair of slot
`i ≥ 1` (slot 0 holds no key). -/
def itemAt (n : InternalNode) (i : Nat) : Option (Int × Pid) :=
  if i = 0 then none else n.entries.get? (i - 1)

/-- Modelled from the spec: `Remove(index)` — drop slot `i ≥ 1`. -/
def removeAt (n : InternalNode) (i : Nat) : Option InternalNode :=
  if i = 0 then none
  else if i - 1 < n.entries.length then
    some { n with entries := n.entries.eraseIdx (i - 1) }
  else none

/-- Modelled from the spec: `SetKeyAt` for a slot `i ≥ 1`. -/
def setKeyAt (n : InternalNode) (i : Nat) (k : Int) : Option InternalNode :=
  if i = 0 then none
  else
    match n.entries.get? (i - 1) with
    | none => none
    | some (_, p) => some { n with entries := n.entries.set (i - 1) (k, p) }

/-- Modelled from the spec: `SetValueAt` — slot 0 is the leftmost child. -/
def setValueAt (n : InternalNode) (i : Nat) (p : Pid) : Option InternalNode :=
  if i = 0 then some { n with x := p }
  else
    match n.entries.get? (i - 1) with
    | none => none
    | some (k, _) => some { n with entries := n.entries.set (i - 1) (k, p) }

/-- Modelled from the spec: `InsertNodeAfter(left, key, right)` — insert
`(key, right)` immediately after the slot pointing to `left`. -/
def insertAfterGo (leftPid : Pid) (k : Int) (rightPid : Pid) :
    List (Int × Pid) → Option (List (Int × Pid))
  | [] => none
  | (k0, p0) :: rest =>
    if p0 = leftPid then some ((k0, p0) :: (k, rightPid) :: rest)
    else (insertAfterGo leftPid k rightPid rest).map ((k0, p0) :: ·)

def insertNodeAfter (n : InternalNode) (leftPid : Pid) (k : Int) (rightPid : Pid) :
    Option InternalNode :=
  if n.x = leftPid then some { n with entries := (k, rightPid) :: n.entries }
  else (insertAfterGo leftPid k rightPid n.entries).map fun es => { n with entries := es }

/-- Sorted insertion of a `(key, child)` pair, used by the modelled
`InsertAndGetMid`. -/
def sortedInsertPair (k : Int) (p : Pid) : List (Int × Pid) → List (Int × Pid)
  | [] => [(k, p)]
  | (k0, p0) :: rest =>
    if k < k0 then (k, p) :: (k0, p0) :: rest else (k0, p0) :: sortedInsertPair k p rest

/-- Modelled from the spec: `InsertAndGetMid(key, value)` — insert the
pair in key order into the overflowing internal page, pick the middle
entry to push up, keep the slots below it in the page and hand the slots
above it to the caller ("moving the upper half including the pushed-up
middle entry", §4.4).  Returns `(mid, page-after-truncation,
moved-upper-entries)`. -/
def insertAndGetMid (n : InternalNode) (k : Int) (p : Pid) :
    Option ((Int × Pid) × InternalNode × List (Int × Pid)) :=
  let es := sortedInsertPair k p n.entries
  let j := es.length / 2
  match es.get? j with
  | none => none
  | some mid => some (mid, { n with entries := es.take j }, es.drop (j + 1))

/-! ### Tree operations (`b_plus_tree.cpp`) -/

/-- The descent loop of `BPLUSTREE_TYPE::FindLeafPage`: from the root,
follow `ValueAt(0)` (leftmost) or the internal `Lookup` until a leaf
page is reached.  Fetching `root_page_id_ == INVALID_PAGE_ID` (the
empty tree — `FindLeafPage` does not check) or a dangling page id is the
C++ garbage read, modelled `none`. -/
def findLeafGo (t : Tree) (k : Int) (leftMost : Bool) : Nat → Pid → Option (Pid × LeafNode)
  | 0, _ => none
  | fuel + 1, cur =>
    match t.arena cur with
    | none => none
    | some (.leaf ln) => some (cur, ln)
    | some (.internal n) =>
      findLeafGo t k leftMost fuel (if leftMost then n.x else internalLookup k n)

def findLeaf (t : Tree) (k : Int) (leftMost : Bool) (fuel : Nat) : Option (Pid × LeafNode) :=
  findLeafGo t k leftMost fuel t.rootPid

/-- Result of `BPLUSTREE_TYPE::GetValue`: the boolean return, the
value(s) pushed onto the caller's `result` vector, and the
`(page_id, is_dirty)` argument of the `UnpinPage` call made for the
visited leaf. -/
structure GetValueOut where
  found : Bool
  appended : List Nat
  unpinnedLeaf : Pid × Bool
deriving DecidableEq, Repr

/-- `BPLUSTREE_TYPE::GetValue`: find the leaf, `Lookup` into a
default-constructed `tmp` (modelled by `0`), unconditionally
`push_back(std::move(tmp))`, and unpin the leaf with `is_dirty = true`
(line 48) although nothing was written. -/
def getValue (t : Tree) (k : Int) (fuel : Nat) : Option GetValueOut :=
  match findLeaf t k false fuel with
  | none => none
  | some (lp, ln) =>
    let tmp : Nat := 0
    let found := leafLookup k ln.entries
    some { found := found.isSome
           appended := [found.getD tmp]
           unpinnedLeaf := (lp, true) }

/-- `BPLUSTREE_TYPE::StartNewTree`: allocate the root page, point
`root_page_id_` at it, `Init` it as an empty leaf.  (Despite its
arguments, the function does not insert the pair — `InsertIntoLeaf`
does.) -/
def startNewTree (t : Tree) (_k : Int) (_v : Nat) : Tree :=
  let rootPid := t.nextPid
  let t1 := { t with nextPid := t.nextPid + 1, rootPid := rootPid }
  setNode t1 rootPid (.leaf { parent := INVALID_PID, next := INVALID_PID,
                              maxSize := t.leafMax, entries := [] })

/-- `reparent`: fetch each listed child and `SetParentPageId(newParent)`
(the helper hidden inside the modelled internal `MoveHalfTo` /
`MoveAllTo`, which take the buffer pool precisely to do this; spec §4.4:
"Children whose parent pointer changes must be updated"). -/
def reparent (newParent : Pid) : Tree → List Pid → Option Tree
  | t, [] => some t
  | t, c :: rest =>
    match t.arena c with
    | none => none
    | some n => reparent newParent (setNode t c (setParent n newParent)) rest

/-- `BPLUSTREE_TYPE::InsertIntoParent`, recursion depth bounded by
`fuel`.  Root case: `PopulateNewRoot` builds a fresh internal root
`(leftmost = old, (key, new))`, both children are reparented and
`root_page_id_` updated.  Otherwise insert `(key, new)` after `old` in
the parent if it has room, else split the parent via the modelled
`InsertAndGetMid` + `Split(parent, mid.second)` and recurse with the
middle key. -/
def insertIntoParent (t : Tree) (oldPid : Pid) (k : Int) (newPid : Pid) :
    Nat → Option Tree
  | 0 => none
  | fuel + 1 =>
    match t.arena oldPid, t.arena newPid with
    | some oldN, some newN =>
      if nodeParent oldN = INVALID_PID then
        -- old_node->IsRootPage(): build a new root (PopulateNewRoot)
        let rp := t.nextPid
        let t1 := { t with nextPid := t.nextPid + 1 }
        let t2 := setNode t1 rp (.internal
          { parent := INVALID_PID, maxSize := t.internalMax, x := oldPid,
            entries := [(k, newPid)] })
        let t3 := setNode t2 oldPid (setParent oldN rp)
        let t4 := setNode t3 newPid (setParent newN rp)
        some { t4 with rootPid := rp }
      else
        let parentPid := nodeParent oldN
        let t1 := setNode t newPid (setParent newN parentPid)
        match t1.arena parentPid with
        | some (.internal pn) =>
          if internalSize pn < pn.maxSize then
            (insertNodeAfter pn oldPid k newPid).map fun pn' =>
              setNode t1 parentPid (.internal pn')
          else
            match insertAndGetMid pn k newPid with
            | none => none
            | some mids =>
              -- Split(parent_page, mid.second)
              let mid := mids.1
              let pnLeft := mids.2.1
              let moved := mids.2.2
              let np := t1.nextPid
              let t2 := { t1 with nextPid := t1.nextPid + 1 }
              let t3 := setNode t2 parentPid (.internal pnLeft)
              let t4 := setNode t3 np (.internal
                { parent := pn.parent, maxSize := pn.maxSize, x := mid.2, entries := moved })
              match reparent np t4 (mid.2 :: moved.map Prod.snd) with
              | none => none
              | some t5 => insertIntoParent t5 parentPid mid.1 np fuel
        | _ => none
    | _, _ => none

/-- `BPLUSTREE_TYPE::InsertIntoLeaf`: find the leaf; fail on duplicate;
insert in place if `size < max_size`; otherwise `Split` the leaf (the
upper `size − min_size` entries move to the new page, which is linked
into the leaf chain), place the new pair in the half its key belongs to
(`comparator(key, mid_key) > 0` → new page) and `InsertIntoParent` with
`mid_key = new_page->KeyAt(0)`. -/
def insertIntoLeaf (t : Tree) (k : Int) (v : Nat) (fuel : Nat) : Option (Bool × Tree) :=
  match findLeaf t k false fuel with
  | none => none
  | some (lp, ln) =>
    if (leafLookup k ln.entries).isSome then some (false, t)
    else if ln.entries.length < ln.maxSize then
      some (true, setNode t lp (.leaf { ln with entries := leafInsert k v ln.entries }))
    else
      let min := minSizeOf ln.maxSize
      let newPid := t.nextPid
      let moved := ln.entries.drop min
      match moved.head? with
      | none => none  -- new_page->KeyAt(0) on an empty page: garbage read
      | some mid =>
        let newLeaf : LeafNode :=
          { parent := ln.parent, next := ln.next, maxSize := ln.maxSize, entries := moved }
        let lnKeep : LeafNode := { ln with next := newPid, entries := ln.entries.take min }
        let lnF :=
          if mid.1 < k then lnKeep
          else { lnKeep with entries := leafInsert k v lnKeep.entries }
        let newLeafF :=
          if mid.1 < k then { newLeaf with entries := leafInsert k v newLeaf.entries }
          else newLeaf
        let t1 := { t with nextPid := t.nextPid + 1 }
        let t2 := setNode t1 lp (.leaf lnF)
        let t3 := setNode t2 newPid (.leaf newLeafF)
        (insertIntoParent t3 lp mid.1 newPid fuel).map fun t4 => (true, t4)

/-- `BPLUSTREE_TYPE::Insert`: `StartNewTree` when the tree is empty,
then `InsertIntoLeaf`. -/
def insert (t : Tree) (k : Int) (v : Nat) (fuel : Nat) : Option (Bool × Tree) :=
  let t1 := if t.rootPid = INVALID_PID then startNewTree t k v else t
  insertIntoLeaf t1 k v fuel

/-- `BPLUSTREE_TYPE::Redistribute` (leaf overload): move one entry
across from the sibling and refresh the parent separator key. -/
def redistributeLeaf (t : Tree) (nodePid : Pid) (ln : LeafNode) (siblingPid : Pid)
    (sn : LeafNode) (parentPid : Pid) (pn : InternalNode) (idx siblingIdx : Nat)
    (siblingIsLeft : Bool) : Option Tree :=
  if siblingIsLeft then
    -- sibling->MoveLastToFrontOf(node); parent->SetKeyAt(idx, node->KeyAt(0))
    match sn.entries.getLast? with
    | none => none
    | some last =>
      let t1 := setNode t siblingPid (.leaf { sn with entries := sn.entries.dropLast })
      let ln1 : LeafNode := { ln with entries := last :: ln.entries }
      let t2 := setNode t1 nodePid (.leaf ln1)
      match ln1.entries.head? with
      | none => none
      | some h =>
        (setKeyAt pn idx h.1).map fun pn' => setNode t2 parentPid (.internal pn')
  else
    -- sibling->MoveFirstToEndOf(node); parent->SetKeyAt(sibling_idx, sibling->KeyAt(0))
    match sn.entries.head? with
    | none => none
    | some first =>
      let sn1 : LeafNode := { sn with entries := sn.entries.tail }
      let t1 := setNode t siblingPid (.leaf sn1)
      let t2 := setNode t1 nodePid (.leaf { ln with entries := ln.entries ++ [first] })
      match sn1.entries.head? with
      | none => none  -- sibling->KeyAt(0) on an emptied page: garbage read
      | some h =>
        (setKeyAt pn siblingIdx h.1).map fun pn' => setNode t2 parentPid (.internal pn')

/-- `BPLUSTREE_TYPE::Coalesce` (leaf overload): append the right page's
entries to the left one, drop the parent slot of the absorbed page,
splice the leaf chain.  Returns the updated tree and the page to be
deleted. -/
def coalesceLeaf (t : Tree) (nodePid : Pid) (ln : LeafNode) (siblingPid : Pid)
    (sn : LeafNode) (parentPid : Pid) (pn : InternalNode) (idx siblingIdx : Nat)
    (siblingIsLeft : Bool) : Option (Tree × Pid) :=
  if siblingIsLeft then
    let t1 := setNode t siblingPid
      (.leaf { sn with entries := sn.entries ++ ln.entries, next := ln.next })
    let t2 := setNode t1 nodePid (.leaf { ln with entries := [] })
    (removeAt pn idx).map fun pn' => (setNode t2 parentPid (.internal pn'), nodePid)
  else
    let t1 := setNode t nodePid
      (.leaf { ln with entries := ln.entries ++ sn.entries, next := sn.next })
    let t2 := setNode t1 siblingPid (.leaf { sn with entries := [] })
    (removeAt pn siblingIdx).map fun pn' => (setNode t2 parentPid (.internal pn'), siblingPid)

/-- `BPLUSTREE_TYPE::Redistribute` (internal overload): rotate one slot
through the parent separator and reparent the transferred child. -/
def redistributeInternal (t : Tree) (nodePid : Pid) (nd : InternalNode) (siblingPid : Pid)
    (sd : InternalNode) (parentPid : Pid) (pn : InternalNode) (idx siblingIdx : Nat)
    (siblingIsLeft : Bool) : Option Tree :=
  if siblingIsLeft then
    match itemAt pn idx with
    | none => none
    | some splitEntry =>
      match sd.entries.getLast? with
      | none => none  -- sibling->PopBack() on an empty entry list
      | some siblingBack =>
        let nd1 : InternalNode :=
          { nd with x := siblingBack.2, entries := (splitEntry.1, nd.x) :: nd.entries }
        let sd1 : InternalNode := { sd with entries := sd.entries.dropLast }
        let t1 := setNode t nodePid (.internal nd1)
        let t2 := setNode t1 siblingPid (.internal sd1)
        match t2.arena siblingBack.2 with
        | none => none
        | some transChild =>
          let t3 := setNode t2 siblingBack.2 (setParent transChild nodePid)
          match setKeyAt pn idx siblingBack.1 with
          | none => none
          | some pn1 =>
            (setValueAt pn1 idx nodePid).map fun pn2 =>
              setNode t3 parentPid (.internal pn2)
  else
    match itemAt pn siblingIdx with
    | none => none
    | some splitEntry =>
      let nd1 : InternalNode := { nd with entries := nd.entries ++ [(splitEntry.1, sd.x)] }
      let t1 := setNode t nodePid (.internal nd1)
      match t1.arena sd.x with
      | none => none
      | some transChild =>
        let t2 := setNode t1 sd.x (setParent transChild nodePid)
        match sd.entries.head? with
        | none => none  -- sibling->PopFront() on an empty entry list
        | some siblingFront =>
          let sd1 : InternalNode := { sd with x := siblingFront.2, entries := sd.entries.tail }
          let t3 := setNode t2 siblingPid (.internal sd1)
          match setKeyAt pn siblingIdx siblingFront.1 with
          | none => none
          | some pn1 =>
            (setValueAt pn1 siblingIdx siblingPid).map fun pn2 =>
              setNode t3 parentPid (.internal pn2)

/-- `BPLUSTREE_TYPE::Coalesce` (internal overload): pull the parent
separator down in front of the right page's leftmost child, move and
reparent all slots of the absorbed page, drop its parent slot. -/
def coalesceInternal (t : Tree) (nodePid : Pid) (nd : InternalNode) (siblingPid : Pid)
    (sd : InternalNode) (parentPid : Pid) (pn : InternalNode) (idx siblingIdx : Nat)
    (siblingIsLeft : Bool) : Option (Tree × Pid) :=
  if siblingIsLeft then
    match itemAt pn idx with
    | none => none
    | some splitEntry =>
      let sd1 : InternalNode :=
        { sd with entries := sd.entries ++ (splitEntry.1, nd.x) :: nd.entries }
      let t1 := setNode t siblingPid (.internal sd1)
      let t2 := setNode t1 nodePid (.internal { nd with entries := [] })
      match reparent siblingPid t2 (nd.x :: nd.entries.map Prod.snd) with
      | none => none
      | some t3 =>
        (removeAt pn idx).map fun pn' => (setNode t3 parentPid (.internal pn'), nodePid)
  else
    match itemAt pn siblingIdx with
    | none => none
    | some splitEntry =>
      let nd1 : InternalNode :=
        { nd with entries := nd.entries ++ (splitEntry.1, sd.x) :: sd.entries }
      let t1 := setNode t nodePid (.internal nd1)
      let t2 := setNode t1 siblingPid (.internal { sd with entries := [] })
      match reparent nodePid t2 (sd.x :: sd.entries.map Prod.snd) with
      | none => none
      | some t3 =>
        (removeAt pn siblingIdx).map fun pn' =>
          (setNode t3 parentPid (.internal pn'), siblingPid)

mutual

/-- `BPLUSTREE_TYPE::CoalesceOrRedistribute` (the `N` template
instantiated at both page kinds, dispatching on the page tag), recursion
bounded by `fuel`.  Locate the left sibling (the right one for the
leftmost child), redistribute when `sibling.size + node.size >
sibling.max_size`, else coalesce and, after removing the merged-away
slot from the parent: shrink the root when it is down to one child, or
recurse when the parent reached `size ≤ min_size`.  Collects the pages
the caller must `DeletePage`. -/
def coalesceOrRedistribute (t : Tree) (nodePid : Pid) :
    Nat → Option (Tree × List Pid)
  | 0 => none
  | fuel + 1 =>
    match t.arena nodePid with
    | none => none
    | some nodeN =>
      let parentPid := nodeParent nodeN
      match t.arena parentPid with
      | some (.internal pn) =>
        match valueIndex pn nodePid with
        | none => none
        | some idx =>
          let siblingIdx := if idx = 0 then 1 else idx - 1
          let siblingIsLeft := idx ≠ 0
          match valueAt pn siblingIdx with
          | none => none
          | some siblingPid =>
            match nodeN, t.arena siblingPid with
            | .leaf ln, some (.leaf sn) =>
              if sn.maxSize < sn.entries.length + ln.entries.length then
                (redistributeLeaf t nodePid ln siblingPid sn parentPid pn idx siblingIdx
                  siblingIsLeft).map fun t' => (t', [])
              else
                match coalesceLeaf t nodePid ln siblingPid sn parentPid pn idx siblingIdx
                    siblingIsLeft with
                | none => none
                | some (t1, deadPid) => afterCoalesce t1 parentPid deadPid fuel
            | .internal nd, some (.internal sd) =>
              if sd.maxSize < internalSize sd + internalSize nd then
                (redistributeInternal t nodePid nd siblingPid sd parentPid pn idx siblingIdx
                  siblingIsLeft).map fun t' => (t', [])
              else
                match coalesceInternal t nodePid nd siblingPid sd parentPid pn idx siblingIdx
                    siblingIsLeft with
                | none => none
                | some (t1, deadPid) => afterCoalesce t1 parentPid deadPid fuel
            | _, _ => none
      | _ => none
termination_by fuel => 2 * fuel

/-- The tail of `CoalesceOrRedistribute` after a merge: root shrink
(promote the only remaining child, clear its parent pointer, update the
persisted root id) or recursion on a parent at `size ≤ min_size`. -/
def afterCoalesce (t : Tree) (parentPid deadPid : Pid) (fuel : Nat) :
    Option (Tree × List Pid) :=
  match t.arena parentPid with
  | some (.internal pn) =>
    if pn.parent = INVALID_PID then
      if 1 < internalSize pn then some (t, [deadPid])
      else
        match t.arena pn.x with
        | none => none
        | some child =>
          let t1 := setNode t pn.x (setParent child pn.parent)
          some ({ t1 with rootPid := pn.x }, [deadPid])
    else if internalSize pn ≤ minSizeOf pn.maxSize then
      (coalesceOrRedistribute t parentPid fuel).map fun (t', dead) => (t', deadPid :: dead)
    else some (t, [deadPid])
  | _ => none
termination_by 2 * fuel + 1

end

/-- `BPLUSTREE_TYPE::Remove`: no-op on the empty tree; find the leaf;
when the leaf is safe (`IsRootPage() || size ≥ min_size + 1`) delete in
place, otherwise delete and run `CoalesceOrRedistribute`, finally
`DeletePage` every page collected in `need_delete`. -/
def remove (t : Tree) (k : Int) (fuel : Nat) : Option Tree :=
  if t.rootPid = INVALID_PID then some t
  else
    match findLeaf t k false fuel with
    | none => none
    | some (lp, ln) =>
      if ln.parent = INVALID_PID ∨ minSizeOf ln.maxSize + 1 ≤ ln.entries.length then
        some (setNode t lp (.leaf { ln with entries := leafRemove k ln.entries }))
      else
        let t1 := setNode t lp (.leaf { ln with entries := leafRemove k ln.entries })
        match coalesceOrRedistribute t1 lp fuel with
        | none => none
        | some (t2, dead) => some (dead.foldl delNode t2)

/-! ### Index iterator (`index_iterator.cpp`) -/

/-- `IndexIterator` cursor: `(page_, idx_)`; the end sentinel is
`page_ == INVALID_PAGE_ID`. -/
structure Iter where
  page : Pid
  idx : Nat
deriving DecidableEq, Repr

/-- `IndexIterator::IsEnd`. -/
def iterIsEnd (it : Iter) : Bool := it.page = INVALID_PID

/-- `IndexIterator::operator*`: fetch the current leaf and return
`GetItem(idx_)`; an out-of-range slot or invalid page is a garbage
read (`none`). -/
def iterDeref (t : Tree) (it : Iter) : Option (Int × Nat) :=
  match t.arena it.page with
  | some (.leaf ln) => ln.entries.get? it.idx
  | _ => none

/-- `IndexIterator::operator++`: advance the slot, hop to
`GetNextPageId()` at the end of the leaf. -/
def iterNext (t : Tree) (it : Iter) : Option Iter :=
  match t.arena it.page with
  | some (.leaf ln) =>
    let idx := it.idx + 1
    if idx < ln.entries.length then some { it with idx := idx }
    else some { page := ln.next, idx := 0 }
  | _ => none

/-- `BPLUSTREE_TYPE::Begin(key)`: find the leaf for `key` and build an
iterator at `leaf->KeyIndex(key)` in that leaf. -/
def beginAt (t : Tree) (k : Int) (fuel : Nat) : Option Iter :=
  match findLeaf t k false fuel with
  | none => none
  | some (lp, ln) => some { page := lp, idx := keyIndex k ln.entries }

/-- The leaf-occupancy invariant actually maintained by the code: every
leaf page in the arena holds at most `leaf_max_size` entries and its
`max_size` field is `leaf_max_size`.  The two auxiliary clauses record
that the arena never binds `INVALID_PAGE_ID`, that the allocation
counter stays positive, and that non-root leaves (leaves with a parent)
only exist when `leaf_max_size ≥ 2` (for smaller `max_size` every split
is an out-of-bounds read, so a single successful operation can never
create one). -/
def LeafOK (t : Tree) : Prop :=
  t.arena INVALID_PID = none ∧ 1 ≤ t.nextPid ∧
  ∀ p ln, t.arena p = some (.leaf ln) →
    ln.entries.length ≤ t.leafMax ∧ ln.maxSize = t.leafMax ∧
    (ln.parent ≠ INVALID_PID → 2 ≤ t.leafMax)

/-- Tree states reachable from the constructor state by terminating
`Insert` / `Remove` calls (a call returning `some` for some fuel is
exactly a terminating, assert-free run of the C++ code). -/
inductive ReachT (lm im : Nat) : Tree → Prop
  | init : ReachT lm im (initTree lm im)
  | ins {t t' : Tree} {b : Bool} {k : Int} {v fuel : Nat} :
      ReachT lm im t → insert t k v fuel = some (b, t') → ReachT lm im t'
  | rem {t t' : Tree} {k : Int} {fuel : Nat} :
      ReachT lm im t → remove t k fuel = some t' → ReachT lm im t'

end BPT

/-! ## Concrete states used by the claim theorems -/

namespace LRUK

/-- A run with `k = 3` and two frames: frame 0 accessed at `t = 0`,
frame 1 at `t = 1` and `t = 2`, frame 0 again at `t = 3`, then both
frames made evictable. -/
def c2run : Option Replacer :=
  (((((recordAccess (mkReplacer 2 3) 0).bind fun r => recordAccess r 1).bind
    fun r => recordAccess r 1).bind fun r => recordAccess r 0).bind
    fun r => setEvictable r 0 true).bind fun r => setEvictable r 1 true

/-- The state `c2run` reaches: both frames have fewer than `k = 3`
recorded accesses; frame 0's earliest access (`t = 0`) precedes frame
1's earliest (`t = 1`). -/
def c2r : Replacer :=
  { k := 3, data := [some ⟨[3, 0], true⟩, some ⟨[2, 1], true⟩],
    currentTimestamp := 4, currSize := 2 }

/-- `k = 2`: frame 0 holds `k` recorded accesses, frame 1 fewer. -/
def c2w : Replacer :=
  { k := 2, data := [some ⟨[5, 3], true⟩, some ⟨[4], true⟩],
    currentTimestamp := 6, currSize := 2 }

/-- The state after evicting frame 1 from `c2w`. -/
def c2wAfter : Replacer :=
  { k := 2, data := [some ⟨[5, 3], true⟩, none],
    currentTimestamp := 6, currSize := 1 }

end LRUK

namespace EHash

/-- Stand-in for `std::hash<int>` on small non-negative keys. -/
def natHash : Nat → Nat := fun x => x

/-- Bucket capacity 2, after `Insert(0, 10)`: key 0 is stored and its
bucket has spare room. -/
def c4w : Table Nat Nat :=
  match insertGo 5 (@mkTable Nat Nat natHash 2) 0 10 with
  | some t => t
  | none => @mkTable Nat Nat natHash 2

/-- `c4w` after the upsert `Insert(0, 30)`. -/
def c4wAfter : Table Nat Nat :=
  match insertGo 5 c4w 0 30 with
  | some t => t
  | none => c4w

/-- Bucket capacity 2, after `Insert(0, 10)` and `Insert(2, 20)`: the
single bucket is full and holds key 0. -/
def c4cex0 : Table Nat Nat :=
  match (insertGo 5 (@mkTable Nat Nat natHash 2) 0 10).bind
      (fun t => insertGo 5 t 2 20) with
  | some t => t
  | none => @mkTable Nat Nat natHash 2

/-- `c4cex0` after the upsert `Insert(0, 30)`: the overwrite only lands
after two directory doublings. -/
def c4cex1 : Table Nat Nat :=
  match insertGo 5 c4cex0 0 30 with
  | some t => t
  | none => c4cex0

/-- Bucket capacity 1, after `Insert(0, 10)`. -/
def c6w0 : Table Nat Nat :=
  match insertGo 5 (@mkTable Nat Nat natHash 1) 0 10 with
  | some t => t
  | none => @mkTable Nat Nat natHash 1

/-- `c6w0` after `Insert(1, 1)`, which forces a directory doubling. -/
def c6w : Table Nat Nat :=
  match insertGo 5 c6w0 1 1 with
  | some t => t
  | none => c6w0

end EHash

namespace BPool

/-- Stand-in for `std::hash<page_id_t>` on small non-negative ids. -/
def intHash : Int → Nat := fun p => p.toNat

/-- A pool of two frames. -/
def c7m0 : BPM := mkBPM 2 intHash 2 2

/-- `c7m0` after `NewPage` (page 0 pinned in frame 0). -/
def c7m : BPM :=
  match newPage 5 c7m0 with
  | some (_, m) => m
  | none => c7m0

/-- `c7m` after `UnpinPage(0, true)`. -/
def c7mAfter : BPM :=
  match unpinPage c7m 0 true with
  | some (_, m) => m
  | none => c7m

/-- A freshly constructed pool of two frames: no frame holds a page. -/
def c8m : BPM := mkBPM 2 intHash 2 2

/-- A pool of a single frame. -/
def c10m0 : BPM := mkBPM 1 intHash 2 2

/-- `c10m0` after `NewPage`: the free list is empty and the only frame
is pinned (no evictable frame). -/
def c10m : BPM :=
  match newPage 5 c10m0 with
  | some (_, m) => m
  | none => c10m0

end BPool

namespace BPT

/-- One `Insert` step with defaulted fuel, used to spell out concrete
reachable trees. -/
def c3step (t : Tree) (k : Int) (v : Nat) : Tree :=
  match insert t k v 30 with
  | some (_, t') => t'
  | none => t

/-- `leaf_max_size = 3`, `internal_max_size = 3`: inserting 1..5. -/
def c3t1 : Tree := c3step (initTree 3 3) 1 10

def c3t2 : Tree := c3step c3t1 2 20

def c3t3 : Tree := c3step c3t2 3 30

def c3t4 : Tree := c3step c3t3 4 40

def c3t5 : Tree := c3step c3t4 5 50

/-- The tree `Remove(5)` produces from `c3t4` (keys 1..4): the key 5 is
absent, yet the removal rebalances the leaves — leaf 1 hands `(2, 20)`
to leaf 2 and the separator key in the root becomes 2.  (Spelled as the
explicit page writes so that the state evaluates; `c3tB_remove` proves
it is what `remove` returns.) -/
def c3tB : Tree :=
  setNode
    (setNode
      (setNode (setNode c3t4 2 (.leaf ⟨3, -1, 3, [(3, 30), (4, 40)]⟩))
        1 (.leaf ⟨3, 2, 3, [(1, 10)]⟩))
      2 (.leaf ⟨3, -1, 3, [(2, 20), (3, 30), (4, 40)]⟩))
    3 (.internal ⟨-1, 3, 1, [(2, 2)]⟩)

end BPT

/-! ## Proofs -/

namespace LRUK

theorem better_iff {k : Nat} {ei es : LRUEntry} :
    better k ei es = true ↔
      (es.t.length = k ∧ ei.t.length = k ∧ ei.t.getLastD 0 < es.t.getLastD 0) ∨
      (es.t.length = k ∧ ei.t.length < k) ∨
      (es.t.length < k ∧ ei.t.length < k ∧ ei.t.headD 0 < es.t.headD 0) := by
  simp only [better, Bool.or_eq_true, Bool.and_eq_true, decide_eq_true_eq]
  tauto

theorem better_false_iff {k : Nat} {ei es : LRUEntry} :
    better k ei es = false ↔
      ¬((es.t.length = k ∧ ei.t.length = k ∧ ei.t.getLastD 0 < es.t.getLastD 0) ∨
        (es.t.length = k ∧ ei.t.length < k) ∨
        (es.t.length < k ∧ ei.t.length < k ∧ ei.t.headD 0 < es.t.headD 0)) := by
  rw [← better_iff]
  cases h : better k ei es <;> simp [h]

theorem better_irrefl {k : Nat} {e : LRUEntry} : better k e e = false := by
  rw [better_false_iff]; omega

theorem better_asymm {k : Nat} {a b : LRUEntry} (h : better k a b = true) :
    better k b a = false := by
  rw [better_iff] at h
  rw [better_false_iff]
  omega

/-- If `b` replaced `a` in the selection loop and `x` had failed to
replace `a`, then `x` also fails to replace `b`: the comparison used by
`Evict` is a strict weak order (lexicographic on access-count class and
timestamp) so the loop result dominates everything it scanned. -/
theorem better_transfer {k : Nat} {a b x : LRUEntry} (hba : better k b a = true)
    (hxa : better k x a = false) : better k x b = false := by
  rw [better_iff] at hba
  rw [better_false_iff] at hxa ⊢
  omega

theorem selStep_skip_none {k : Nat} {acc : Option (Nat × LRUEntry)} {g : Nat} :
    selStep k acc (g, none) = acc := rfl

theorem selStep_skip_nonev {k : Nat} {acc : Option (Nat × LRUEntry)} {g : Nat} {e : LRUEntry}
    (h : e.evictable = false) : selStep k acc (g, some e) = acc := by
  simp [selStep, h]

theorem selStep_first {k : Nat} {g : Nat} {e : LRUEntry} (h : e.evictable = true) :
    selStep k none (g, some e) = some (g, e) := by
  simp [selStep, h]

theorem selStep_replace {k : Nat} {g s : Nat} {e es : LRUEntry} (h : e.evictable = true)
    (hb : better k e es = true) : selStep k (some (s, es)) (g, some e) = some (g, e) := by
  simp [selStep, h, hb]

theorem selStep_keep {k : Nat} {g s : Nat} {e es : LRUEntry} (h : e.evictable = true)
    (hb : better k e es = false) : selStep k (some (s, es)) (g, some e) = some (s, es) := by
  simp [selStep, h, hb]

/-- Folding the selection step from an already-selected entry `es` can
only move to entries that dominate `es` (and everything `es` already
dominated). -/
theorem selStep_foldl_dominates (k : Nat) (l : List (Nat × Option LRUEntry)) :
    ∀ (s : Nat) (es : LRUEntry) (res : Nat × LRUEntry),
      l.foldl (selStep k) (some (s, es)) = some res →
      (∀ x, better k x es = false → better k x res.2 = false) ∧
        better k es res.2 = false := by
  induction l with
  | nil =>
    intro s es res h
    simp only [List.foldl_nil, Option.some.injEq] at h
    subst h
    exact ⟨fun x hx => hx, better_irrefl⟩
  | cons p t ih =>
    obtain ⟨g, oe⟩ := p
    intro s es res h
    simp only [List.foldl_cons] at h
    match oe with
    | none =>
      rw [selStep_skip_none] at h
      exact ih s es res h
    | some e =>
      cases hev : e.evictable with
      | false =>
        rw [selStep_skip_nonev hev] at h
        exact ih s es res h
      | true =>
        cases hb : better k e es with
        | true =>
          rw [selStep_replace hev hb] at h
          obtain ⟨htr, _⟩ := ih g e res h
          exact ⟨fun x hx => htr x (better_transfer hb hx), htr es (better_asymm hb)⟩
        | false =>
          rw [selStep_keep hev hb] at h
          exact ih s es res h

/-- Soundness of the selection loop: the final selection dominates every
evictable entry in the scanned list, and is itself either the initial
accumulator or an evictable entry of the list. -/
theorem selStep_foldl_sound (k : Nat) (l : List (Nat × Option LRUEntry)) :
    ∀ (acc : Option (Nat × LRUEntry)) (res : Nat × LRUEntry),
      l.foldl (selStep k) acc = some res →
      (∀ (g : Nat) (eg : LRUEntry), (g, some eg) ∈ l → eg.evictable = true →
          better k eg res.2 = false) ∧
        (acc = some res ∨ ((res.1, some res.2) ∈ l ∧ res.2.evictable = true)) := by
  induction l with
  | nil =>
    intro acc res h
    simp only [List.foldl_nil] at h
    exact ⟨fun g eg hg => absurd hg (List.not_mem_nil _), Or.inl h⟩
  | cons p t ih =>
    obtain ⟨q, oe⟩ := p
    intro acc res h
    simp only [List.foldl_cons] at h
    obtain ⟨ihmem, ihsrc⟩ := ih (selStep k acc (q, oe)) res h
    constructor
    · intro g eg hg hev
      rcases List.mem_cons.mp hg with hg | hg
      · -- the head element: analyse the step it took
        obtain ⟨hq, hoe⟩ := Prod.mk.injEq .. ▸ hg
        subst hq
        rw [← hoe] at h
        match acc with
        | none =>
          rw [selStep_first hev] at h
          exact (selStep_foldl_dominates k t _ _ _ h).2
        | some (s, es) =>
          cases hb : better k eg es with
          | true =>
            rw [selStep_replace hev hb] at h
            exact (selStep_foldl_dominates k t _ _ _ h).2
          | false =>
            rw [selStep_keep hev hb] at h
            exact (selStep_foldl_dominates k t _ _ _ h).1 eg hb
      · exact ihmem g eg hg hev
    · rcases ihsrc with hsrc | hsrc
      · -- the step itself produced the final selection
        match oe with
        | none =>
          rw [selStep_skip_none] at hsrc
          exact Or.inl hsrc
        | some e =>
          cases hev : e.evictable with
          | false =>
            rw [selStep_skip_nonev hev] at hsrc
            exact Or.inl hsrc
          | true =>
            match acc with
            | none =>
              rw [selStep_first hev] at hsrc
              cases hsrc
              exact Or.inr ⟨List.mem_cons_self _ _, hev⟩
            | some (s, es) =>
              cases hb : better k e es with
              | true =>
                rw [selStep_replace hev hb] at hsrc
                cases hsrc
                exact Or.inr ⟨List.mem_cons_self _ _, hev⟩
              | false =>
                rw [selStep_keep hev hb] at hsrc
                exact Or.inl hsrc
      · exact Or.inr ⟨List.mem_cons_of_mem _ hsrc.1, hsrc.2⟩

end LRUK

namespace EHash

theorem bucketInsert_depth [DecidableEq K] {b b' : Bucket K V} {k : K} {v : V}
    (h : bucketInsert b k v = some b') : b'.depth = b.depth := by
  unfold bucketInsert at h
  split at h
  · exact absurd h (by simp)
  · split at h <;> (cases h; rfl)

theorem bucketInsert_capacity [DecidableEq K] {b b' : Bucket K V} {k : K} {v : V}
    (h : bucketInsert b k v = some b') : b'.capacity = b.capacity := by
  unfold bucketInsert at h
  split at h
  · exact absurd h (by simp)
  · split at h <;> (cases h; rfl)

/-- Updating only a bucket's contents (same depth) preserves the
directory invariant. -/
theorem Inv_setStore {t : Table K V} {bid : Nat} {b' : Bucket K V}
    (hI : Inv t) (hd : b'.depth = (t.store bid).depth) : Inv (setStore t bid b') := by
  obtain ⟨h1, h2, h3, h4⟩ := hI
  have hdep : ∀ x : Nat, (((setStore t bid b').store) x).depth = (t.store x).depth := by
    intro x
    by_cases hx : x = bid
    · subst hx; simpa [setStore] using hd
    · simp [setStore, hx]
  refine ⟨h1, ?_, ?_, h4⟩
  · intro i hi
    rw [hdep]
    exact h2 i hi
  · intro i j hi hj hmod
    rw [hdep] at hmod
    exact h3 i j hi hj hmod

theorem remove_inv [DecidableEq K] {t t' : Table K V} {k : K} {b : Bool}
    (hI : Inv t) (h : remove t k = some (b, t')) : Inv t' := by
  unfold remove at h
  split at h
  · exact absurd h (by simp)
  · split at h
    · cases h; exact hI
    · cases h; exact Inv_setStore hI rfl

theorem redistribute_inv [DecidableEq K] {items : List (K × V)} :
    ∀ {t t' : Table K V}, Inv t → redistribute t items = some t' → Inv t' := by
  induction items with
  | nil =>
    intro t t' hI h
    cases h
    exact hI
  | cons p rest ih =>
    intro t t' hI h
    obtain ⟨k, v⟩ := p
    unfold redistribute at h
    split at h
    · exact absurd h (by simp)
    · split at h
      · exact ih hI h
      · rename_i bid _ b' hb
        exact ih (Inv_setStore hI (bucketInsert_depth hb)) h

theorem getD_append_self {l : List Nat} {i : Nat} (h : i < 2 * l.length) :
    (l ++ l).getD i 0 = l.getD (i % l.length) 0 := by
  by_cases hi : i < l.length
  · rw [List.getD_append _ _ _ _ hi, Nat.mod_eq_of_lt hi]
  · push_neg at hi
    rw [List.getD_append_right _ _ _ _ hi, Nat.mod_eq_sub_mod hi,
      Nat.mod_eq_of_lt (by omega)]

/-- Doubling the directory (`dir_.push_back` copy loop plus
`global_depth_++`) preserves the invariant. -/
theorem double_inv {t : Table K V} (hI : Inv t) :
    Inv { t with globalDepth := t.globalDepth + 1, dir := t.dir ++ t.dir } := by
  obtain ⟨h1, h2, h3, h4⟩ := hI
  have hne : t.dir.length ≠ 0 := by rw [h1]; positivity
  have hlen2 : (t.dir ++ t.dir).length = 2 ^ (t.globalDepth + 1) := by
    simp [List.length_append, h1]; ring
  have hget : ∀ i, i < (t.dir ++ t.dir).length →
      (t.dir ++ t.dir).getD i 0 = t.dir.getD (i % t.dir.length) 0 := by
    intro i hi
    exact getD_append_self (by simpa [List.length_append, two_mul] using hi)
  have hmodlt : ∀ i : Nat, i % t.dir.length < t.dir.length :=
    fun i => Nat.mod_lt _ (Nat.pos_of_ne_zero hne)
  refine ⟨hlen2, ?_, ?_, ?_⟩
  · intro i hi
    rw [hget i hi]
    exact le_trans (h2 _ (hmodlt i)) (Nat.le_succ _)
  · intro i j hi hj hmod
    rw [hget i hi, hget j hj]
    rw [hget i hi] at hmod
    set δ := (t.store (t.dir.getD (i % t.dir.length) 0)).depth with hδ
    have hδle : δ ≤ t.globalDepth := h2 _ (hmodlt i)
    have hdvd : 2 ^ δ ∣ 2 ^ t.globalDepth := pow_dvd_pow 2 hδle
    have hi' : i % t.dir.length % 2 ^ δ = i % 2 ^ δ := by
      rw [h1]; exact Nat.mod_mod_of_dvd i hdvd
    have hj' : j % t.dir.length % 2 ^ δ = j % 2 ^ δ := by
      rw [h1]; exact Nat.mod_mod_of_dvd j hdvd
    exact h3 _ _ (hmodlt i) (hmodlt j) (by rw [hi', hj']; exact hmod)
  · intro i hi
    rw [hget i hi]
    exact h4 _ (hmodlt i)

/-- The redirect step of the split: all slots aliasing the overflowed
bucket are repointed at the two fresh sibling buckets of local depth
`d + 1` according to bit `d` of the slot index.  This preserves the
directory invariant. -/
theorem redirect_inv (t1 : Table K V) (bid d idx : Nat) (cap : Nat)
    (hI : Inv t1) (hd : d < t1.globalDepth)
    (hbid : t1.dir.getD idx 0 = bid) (hidx : idx < t1.dir.length)
    (hdep : (t1.store bid).depth = d) :
    Inv { t1 with
          dir := (List.range (2 ^ t1.globalDepth)).map fun i =>
            if i % 2 ^ d = idx % 2 ^ d then
              (if i.testBit d then t1.nextBucketId else t1.nextBucketId + 1)
            else t1.dir.getD i 0
          store := fun i =>
            if i = t1.nextBucketId then { capacity := cap, depth := d + 1, items := [] }
            else if i = t1.nextBucketId + 1 then
              { capacity := cap, depth := d + 1, items := [] }
            else t1.store i
          nextBucketId := t1.nextBucketId + 2
          numBuckets := t1.numBuckets + 1 } := by
  obtain ⟨h1, h2, h3, h4⟩ := hI
  set gd := t1.globalDepth with hgd
  set nb := t1.nextBucketId with hnb
  set f : Nat → Nat := fun i =>
    if i % 2 ^ d = idx % 2 ^ d then (if i.testBit d then nb else nb + 1)
    else t1.dir.getD i 0 with hf
  set st : Nat → Bucket K V := fun i =>
    if i = nb then { capacity := cap, depth := d + 1, items := [] }
    else if i = nb + 1 then { capacity := cap, depth := d + 1, items := [] }
    else t1.store i with hst
  have hlen : ((List.range (2 ^ gd)).map f).length = 2 ^ gd := by simp
  have hget : ∀ i, i < 2 ^ gd → ((List.range (2 ^ gd)).map f).getD i 0 = f i := by
    intro i hi
    rw [List.getD_eq_getElem?_getD, List.getElem?_map, List.getElem?_range hi]
    rfl
  -- unmatched slots keep their old bucket, whose id is fresh below `nb`
  have hfresh : ∀ i, i < 2 ^ gd → t1.dir.getD i 0 < nb := by
    intro i hi
    exact h4 i (by rw [h1]; exact hi)
  have hstOld : ∀ i, i < 2 ^ gd → st (t1.dir.getD i 0) = t1.store (t1.dir.getD i 0) := by
    intro i hi
    have := hfresh i hi
    simp only [hst]
    rw [if_neg (by omega), if_neg (by omega)]
  have hdir1len : ∀ i, i < 2 ^ gd → i < t1.dir.length := fun i hi => by rw [h1]; exact hi
  -- a matched slot is sent to one of the two new buckets of depth d+1
  have hstNew : ∀ i : Nat, (i.testBit d → st (if i.testBit d then nb else nb + 1) =
        { capacity := cap, depth := d + 1, items := [] }) ∧
      (¬i.testBit d → st (if i.testBit d then nb else nb + 1) =
        { capacity := cap, depth := d + 1, items := [] }) := by
    intro i
    constructor <;> intro hb <;> simp [hst, hb]
  unfold Inv
  dsimp only
  refine ⟨hlen, ?_, ?_, ?_⟩
  · -- local depths stay ≤ global depth
    intro i hi
    rw [hlen] at hi
    rw [hget i hi]
    by_cases hm : i % 2 ^ d = idx % 2 ^ d
    · simp only [hf, hm, if_true]
      by_cases hb : i.testBit d
      · rw [(hstNew i).1 hb]; exact hd
      · rw [(hstNew i).2 hb]; exact hd
    · simp only [hf, hm, if_false]
      rw [hstOld i hi]
      exact h2 i (hdir1len i hi)
  · -- aliasing
    intro i j hi hj hmod
    rw [hlen] at hi hj
    rw [hget i hi, hget j hj]
    rw [hget i hi] at hmod
    by_cases hmi : i % 2 ^ d = idx % 2 ^ d
    · -- i is redirected to a new bucket of depth d+1
      have hdepnew : (st (f i)).depth = d + 1 := by
        simp only [hf, hmi, if_true]
        by_cases hb : i.testBit d
        · rw [(hstNew i).1 hb]
        · rw [(hstNew i).2 hb]
      rw [hdepnew] at hmod
      have hdvd : (2 : Nat) ^ d ∣ 2 ^ (d + 1) := pow_dvd_pow 2 (Nat.le_succ d)
      have hij : i % 2 ^ d = j % 2 ^ d := by
        rw [← Nat.mod_mod_of_dvd i hdvd, ← Nat.mod_mod_of_dvd j hdvd, hmod]
      have hmj : j % 2 ^ d = idx % 2 ^ d := by rw [← hij]; exact hmi
      have htb : i.testBit d = j.testBit d := by
        have hti : (i % 2 ^ (d + 1)).testBit d = i.testBit d := by
          rw [Nat.testBit_mod_two_pow]
          simp
        have htj : (j % 2 ^ (d + 1)).testBit d = j.testBit d := by
          rw [Nat.testBit_mod_two_pow]
          simp
        rw [← hti, ← htj, hmod]
      simp only [hf, hmi, hmj, if_true, htb]
    · -- i keeps its old bucket
      have hfi : f i = t1.dir.getD i 0 := by simp only [hf, hmi, if_false]
      rw [hfi, hstOld i hi] at hmod
      set δ := (t1.store (t1.dir.getD i 0)).depth with hδ
      -- the old invariant already forces j to alias i's bucket
      have hji : t1.dir.getD i 0 = t1.dir.getD j 0 :=
        h3 i j (hdir1len i hi) (hdir1len j hj) hmod
      -- and j cannot be a redirected slot
      have hmj : ¬(j % 2 ^ d = idx % 2 ^ d) := by
        intro hmj
        rcases le_or_lt δ d with hδd | hδd
        · have hdvdδ : (2 : Nat) ^ δ ∣ 2 ^ d := pow_dvd_pow 2 hδd
          have hjidxδ : j % 2 ^ δ = idx % 2 ^ δ := by
            rw [← Nat.mod_mod_of_dvd j hdvdδ, ← Nat.mod_mod_of_dvd idx hdvdδ, hmj]
          have hkeyj : (t1.store (t1.dir.getD j 0)).depth = δ := by rw [← hji]
          have hjidx : t1.dir.getD j 0 = t1.dir.getD idx 0 :=
            h3 j idx (hdir1len j hj) hidx (by rw [hkeyj]; exact hjidxδ)
          have hβ : t1.dir.getD i 0 = bid := by rw [hji, hjidx, hbid]
          have hδd' : δ = d := by rw [hδ, hβ, hdep]
          have hdvd' : (2 : Nat) ^ d ∣ 2 ^ δ := by rw [hδd']
          have : i % 2 ^ d = j % 2 ^ d := by
            rw [← Nat.mod_mod_of_dvd i hdvd', ← Nat.mod_mod_of_dvd j hdvd', hmod]
          exact hmi (by rw [this]; exact hmj)
        · have hdvd' : (2 : Nat) ^ d ∣ 2 ^ δ := pow_dvd_pow 2 (le_of_lt hδd)
          have : i % 2 ^ d = j % 2 ^ d := by
            rw [← Nat.mod_mod_of_dvd i hdvd', ← Nat.mod_mod_of_dvd j hdvd', hmod]
          exact hmi (by rw [this]; exact hmj)
      simp only [hf, hmi, hmj, if_false]
      exact hji
  · -- freshness
    intro i hi
    rw [hlen] at hi
    rw [hget i hi]
    by_cases hm : i % 2 ^ d = idx % 2 ^ d
    · simp only [hf, hm, if_true]
      by_cases hb : i.testBit d <;> simp [hb]
    · simp only [hf, hm, if_false]
      have := hfresh i hi
      omega

/-- Every terminating run of the `Insert` loop preserves the directory
invariant. -/
theorem insertGo_inv [DecidableEq K] {k : K} {v : V} :
    ∀ (fuel : Nat) {t t' : Table K V}, Inv t → insertGo fuel t k v = some t' → Inv t'
  | 0, t, t', _, h => by rw [insertGo] at h; exact Option.noConfusion h
  | fuel + 1, t, t', hI, h => by
    simp only [insertGo] at h
    split at h
    · exact Option.noConfusion h
    · rename_i bid hdir
      split at h
      · rename_i b' hb
        cases h
        exact Inv_setStore hI (bucketInsert_depth hb)
      · have hidx0 : indexOf t k < t.dir.length := by
          rw [hI.1]
          exact Nat.mod_lt _ (by positivity)
        have hbid0 : t.dir.getD (indexOf t k) 0 = bid := by
          rw [List.getD_eq_getElem?_getD, ← List.get?_eq_getElem?, hdir]
          rfl
        have hdle : (t.store bid).depth ≤ t.globalDepth := by
          have := hI.2.1 (indexOf t k) hidx0
          rwa [hbid0] at this
        by_cases hdg : (t.store bid).depth = t.globalDepth
        · rw [if_pos hdg] at h
          split at h
          · split at h
            · exact Option.noConfusion h
            · rename_i t3 hred
              have hI1 : Inv { t with globalDepth := t.globalDepth + 1, dir := t.dir ++ t.dir } :=
                double_inv hI
              have hI2 := redirect_inv (K := K) (V := V)
                { t with globalDepth := t.globalDepth + 1, dir := t.dir ++ t.dir }
                bid ((t.store bid).depth) (indexOf t k) t.bucketSize hI1
                (by simpa using Nat.lt_succ_of_le hdle)
                ((List.getD_append t.dir t.dir 0 (indexOf t k) hidx0).trans hbid0)
                (by simp [List.length_append]; omega)
                rfl
              exact insertGo_inv fuel (redistribute_inv hI2 hred) h
          · exact Option.noConfusion h
        · rw [if_neg hdg] at h
          split at h
          · split at h
            · exact Option.noConfusion h
            · rename_i t3 hred
              have hI2 := redirect_inv (K := K) (V := V) t bid ((t.store bid).depth)
                (indexOf t k) t.bucketSize hI (lt_of_le_of_ne hdle hdg) hbid0 hidx0 rfl
              exact insertGo_inv fuel (redistribute_inv hI2 hred) h
          · exact Option.noConfusion h

/-- The constructor state satisfies the directory invariant. -/
theorem mkTable_inv {hash : K → Nat} {bs : Nat} : Inv (mkTable (V := V) hash bs) := by
  refine ⟨rfl, ?_, ?_, ?_⟩
  · intro i _
    exact le_refl 0
  · intro i j hi hj _
    have hi0 : i = 0 := by simpa [mkTable] using hi
    have hj0 : j = 0 := by simpa [mkTable] using hj
    rw [hi0, hj0]
  · intro i _
    have : (mkTable (V := V) hash bs).dir.getD i 0 = 0 := by
      cases i <;> simp [mkTable]
    rw [this]
    exact Nat.one_pos

/-- C6 core: every table state reachable by terminating `Insert` /
`Remove` sequences satisfies the directory invariant. -/
theorem reachable_inv [DecidableEq K] {hash : K → Nat} {bs : Nat} {t : Table K V}
    (h : Reachable hash bs t) : Inv t := by
  induction h with
  | init => exact mkTable_inv
  | ins _ hstep ih => exact insertGo_inv _ ih hstep
  | rem _ hstep ih => exact remove_inv ih hstep

end EHash

namespace BPT

theorem leafInsert_length_le (k : Int) (v : Nat) :
    ∀ l : List (Int × Nat), (leafInsert k v l).length ≤ l.length + 1 := by
  intro l
  induction l with
  | nil => simp [leafInsert]
  | cons p rest ih =>
    obtain ⟨k0, v0⟩ := p
    unfold leafInsert
    split
    · simp
    · split
      · simp
      · simpa using Nat.succ_le_succ ih

theorem leafRemove_length_le (k : Int) :
    ∀ l : List (Int × Nat), (leafRemove k l).length ≤ l.length := by
  intro l
  induction l with
  | nil => simp [leafRemove]
  | cons p rest ih =>
    obtain ⟨k0, v0⟩ := p
    unfold leafRemove
    split
    · simp
    · split
      · simp
      · simpa using Nat.succ_le_succ ih

theorem fetched_ne_invalid {t : Tree} {p : Pid} {n : Node}
    (h : LeafOK t) (ha : t.arena p = some n) : p ≠ INVALID_PID := by
  intro hp
  rw [hp, h.1] at ha
  exact Option.noConfusion ha

theorem LeafOK_bumpNext {t : Tree} (h : LeafOK t) :
    LeafOK { t with nextPid := t.nextPid + 1 } := by
  obtain ⟨h1, h2, h3⟩ := h
  refine ⟨h1, ?_, h3⟩
  show (1 : Int) ≤ t.nextPid + 1
  exact le_trans h2 (by omega)

theorem LeafOK_set_internal {t : Tree} {p : Pid} {n : InternalNode}
    (h : LeafOK t) (hp : p ≠ INVALID_PID) : LeafOK (setNode t p (.internal n)) := by
  obtain ⟨h1, h2, h3⟩ := h
  refine ⟨?_, h2, ?_⟩
  · simp only [setNode]
    rw [if_neg (fun hq => hp hq.symm)]
    exact h1
  · intro q ln hq
    simp only [setNode] at hq
    by_cases hqp : q = p
    · rw [if_pos hqp] at hq
      simp at hq
    · rw [if_neg hqp] at hq
      exact h3 q ln hq

theorem LeafOK_set_leaf {t : Tree} {p : Pid} {ln : LeafNode}
    (h : LeafOK t) (hp : p ≠ INVALID_PID)
    (hlen : ln.entries.length ≤ t.leafMax) (hmax : ln.maxSize = t.leafMax)
    (hpar : ln.parent ≠ INVALID_PID → 2 ≤ t.leafMax) :
    LeafOK (setNode t p (.leaf ln)) := by
  obtain ⟨h1, h2, h3⟩ := h
  refine ⟨?_, h2, ?_⟩
  · simp only [setNode]
    rw [if_neg (fun hq => hp hq.symm)]
    exact h1
  · intro q ln' hq
    simp only [setNode] at hq
    by_cases hqp : q = p
    · rw [if_pos hqp] at hq
      simp only [Option.some.injEq, Node.leaf.injEq] at hq
      subst hq
      exact ⟨hlen, hmax, hpar⟩
    · rw [if_neg hqp] at hq
      exact h3 q ln' hq

theorem LeafOK_del {t : Tree} (h : LeafOK t) (p : Pid) : LeafOK (delNode t p) := by
  obtain ⟨h1, h2, h3⟩ := h
  refine ⟨?_, h2, ?_⟩
  · simp only [delNode]
    split
    · rfl
    · exact h1
  · intro q ln hq
    simp only [delNode] at hq
    by_cases hqp : q = p
    · rw [if_pos hqp] at hq
      exact Option.noConfusion hq
    · rw [if_neg hqp] at hq
      exact h3 q ln hq

theorem LeafOK_del_foldl {l : List Pid} :
    ∀ {t : Tree}, LeafOK t → LeafOK (l.foldl delNode t) := by
  induction l with
  | nil => intro t h; exact h
  | cons p rest ih => intro t h; exact ih (LeafOK_del h p)

theorem findLeafGo_mem {t : Tree} {k : Int} {lm : Bool} :
    ∀ {fuel : Nat} {cur lp : Pid} {ln : LeafNode},
      findLeafGo t k lm fuel cur = some (lp, ln) → t.arena lp = some (.leaf ln) := by
  intro fuel
  induction fuel with
  | zero => intro cur lp ln h; exact Option.noConfusion h
  | succ fuel ih =>
    intro cur lp ln h
    unfold findLeafGo at h
    split at h
    · exact Option.noConfusion h
    · rename_i ln' heq
      cases h
      exact heq
    · exact ih h

theorem minSize_two_le {lm : Nat} (h : minSizeOf lm < lm) : 2 ≤ lm := by
  unfold minSizeOf at h
  omega

theorem minSize_add_one_le {lm : Nat} (h : 2 ≤ lm) : minSizeOf lm + 1 ≤ lm := by
  unfold minSizeOf
  omega

theorem minSize_pos {lm : Nat} (h : 2 ≤ lm) : 1 ≤ minSizeOf lm := by
  unfold minSizeOf
  omega

/-- Reparenting a list of fetched children preserves the leaf
invariant. -/
theorem reparent_pres {np : Pid} :
    ∀ (cs : List Pid) (t t' : Tree), LeafOK t → 2 ≤ t.leafMax →
      reparent np t cs = some t' → LeafOK t' ∧ t'.leafMax = t.leafMax := by
  intro cs
  induction cs with
  | nil =>
    intro t t' h _ hr
    cases hr
    exact ⟨h, rfl⟩
  | cons c rest ih =>
    intro t t' h h2 hr
    unfold reparent at hr
    split at hr
    · exact Option.noConfusion hr
    · rename_i n hn
      have hc : c ≠ INVALID_PID := fetched_ne_invalid h hn
      have hset : LeafOK (setNode t c (setParent n np)) := by
        match n with
        | .leaf ln =>
          obtain ⟨hlen, hmax, _⟩ := h.2.2 c ln hn
          exact LeafOK_set_leaf h hc hlen hmax fun _ => h2
        | .internal nn => exact LeafOK_set_internal h hc
      exact ih (setNode t c (setParent n np)) t' hset h2 hr

theorem nextPid_ne_invalid {t : Tree} (h : LeafOK t) : t.nextPid ≠ INVALID_PID := by
  intro heq
  have h2 := h.2.1
  rw [heq] at h2
  exact absurd h2 (by decide)

theorem LeafOK_setRoot {t : Tree} {rp : Pid} (h : LeafOK t) :
    LeafOK { t with rootPid := rp } := h

/-- `InsertIntoParent` preserves the leaf invariant (all leaf mutations
it performs are parent-pointer updates). -/
theorem insertIntoParent_pres :
    ∀ (fuel : Nat) {t t' : Tree} {oldPid newPid : Pid} {k : Int},
      LeafOK t → 2 ≤ t.leafMax → insertIntoParent t oldPid k newPid fuel = some t' →
      LeafOK t' ∧ t'.leafMax = t.leafMax
  | 0, t, t', oldPid, newPid, k, _, _, hip => by
    rw [insertIntoParent] at hip
    exact Option.noConfusion hip
  | fuel + 1, t, t', oldPid, newPid, k, h, h2, hip => by
    simp only [insertIntoParent] at hip
    split at hip
    case h_2 => exact Option.noConfusion hip
    rename_i oldN newN hOld hNew
    have hOldPid : oldPid ≠ INVALID_PID := fetched_ne_invalid h hOld
    have hNewPid : newPid ≠ INVALID_PID := fetched_ne_invalid h hNew
    -- setting the parent pointer of a node fetched from `t` keeps the
    -- invariant in any intermediate tree with the same `leafMax`
    have hboundN : ∀ {p : Pid} {n : Node}, t.arena p = some n →
        ∀ (t0 : Tree) (q pp : Pid), LeafOK t0 → t0.leafMax = t.leafMax →
        q ≠ INVALID_PID → LeafOK (setNode t0 q (setParent n pp)) := by
      intro p n hp t0 q pp h0 hlm hq
      match n with
      | .leaf ln =>
        obtain ⟨hlen, hmax, _⟩ := h.2.2 p ln hp
        refine LeafOK_set_leaf h0 hq ?_ ?_ fun _ => by rw [hlm]; exact h2
        · rw [hlm]; exact hlen
        · rw [hlm]; exact hmax
      | .internal nn => exact LeafOK_set_internal h0 hq
    split at hip
    · -- root case: PopulateNewRoot
      cases hip
      refine ⟨LeafOK_setRoot ?_, rfl⟩
      exact hboundN hNew _ newPid t.nextPid
        (hboundN hOld _ oldPid t.nextPid
          (LeafOK_set_internal (LeafOK_bumpNext h) (nextPid_ne_invalid h))
          rfl hOldPid)
        rfl hNewPid
    · -- non-root case
      rename_i hnr
      have hT1 : LeafOK (setNode t newPid (setParent newN (nodeParent oldN))) :=
        hboundN hNew _ newPid _ h rfl hNewPid
      split at hip
      case h_2 => exact Option.noConfusion hip
      rename_i pn hpn
      split at hip
      · -- parent has room: InsertNodeAfter
        rw [Option.map_eq_some'] at hip
        obtain ⟨pn', _, rfl⟩ := hip
        exact ⟨LeafOK_set_internal hT1 hnr, rfl⟩
      · -- parent splits
        split at hip
        · exact Option.noConfusion hip
        · rename_i mids hmid
          split at hip
          · exact Option.noConfusion hip
          · rename_i t5 hrep
            have hT4 : LeafOK (setNode (setNode { setNode t newPid
                (setParent newN (nodeParent oldN)) with
                nextPid := (setNode t newPid (setParent newN (nodeParent oldN))).nextPid + 1 }
                (nodeParent oldN) (.internal mids.2.1))
                (setNode t newPid (setParent newN (nodeParent oldN))).nextPid
                (.internal { parent := pn.parent, maxSize := pn.maxSize, x := mids.1.2,
                             entries := mids.2.2 })) :=
              LeafOK_set_internal
                (LeafOK_set_internal (LeafOK_bumpNext hT1) hnr)
                (nextPid_ne_invalid hT1)
            obtain ⟨hOK5, hlm5⟩ := reparent_pres _ _ _ hT4 h2 hrep
            obtain ⟨hA, hB⟩ := insertIntoParent_pres fuel hOK5
              (by rw [hlm5]; exact h2) hip
            exact ⟨hA, hB.trans hlm5⟩

theorem startNewTree_pres {t : Tree} (k : Int) (v : Nat) (h : LeafOK t) :
    LeafOK (startNewTree t k v) := by
  unfold startNewTree
  have h1 : LeafOK { t with nextPid := t.nextPid + 1, rootPid := t.nextPid } :=
    LeafOK_bumpNext h
  exact LeafOK_set_leaf h1 (nextPid_ne_invalid h) (by simp) rfl fun hc => absurd rfl hc

/-- `InsertIntoLeaf` preserves the leaf invariant: the in-place path is
guarded by `size < max_size`, and a successful split forces
`leaf_max_size ≥ 2`, after which both halves are within bounds. -/
theorem insertIntoLeaf_pres {t t' : Tree} {k : Int} {v fuel : Nat} {b : Bool}
    (h : LeafOK t) (hil : insertIntoLeaf t k v fuel = some (b, t')) :
    LeafOK t' ∧ t'.leafMax = t.leafMax := by
  simp only [insertIntoLeaf] at hil
  split at hil
  · exact Option.noConfusion hil
  · rename_i lp ln hfl
    have hmem : t.arena lp = some (.leaf ln) := findLeafGo_mem hfl
    obtain ⟨hlen, hmax, hpar⟩ := h.2.2 lp ln hmem
    have hlp : lp ≠ INVALID_PID := fetched_ne_invalid h hmem
    split at hil
    · -- duplicate key: tree unchanged
      cases hil
      exact ⟨h, rfl⟩
    · split at hil
      · -- in-place insertion, guarded by size < max_size
        rename_i hroom
        cases hil
        refine ⟨LeafOK_set_leaf h hlp ?_ hmax hpar, rfl⟩
        show (leafInsert k v ln.entries).length ≤ t.leafMax
        have hle := leafInsert_length_le k v ln.entries
        omega
      · -- leaf split
        rename_i hfull
        split at hil
        · exact Option.noConfusion hil
        · rename_i mid hhead
          rw [Option.map_eq_some'] at hil
          obtain ⟨t4, hip, hpair⟩ := hil
          injection hpair with hb ht'
          subst hb
          subst ht'
          rw [hmax] at hfull hhead hip
          have hlenEq : ln.entries.length = t.leafMax := by omega
          have hmovedlen : (ln.entries.drop (minSizeOf t.leafMax)).length =
              ln.entries.length - minSizeOf t.leafMax := List.length_drop ..
          have hmovedne : (ln.entries.drop (minSizeOf t.leafMax)).length ≠ 0 := by
            intro hnil
            rw [List.length_eq_zero] at hnil
            rw [hnil] at hhead
            exact Option.noConfusion hhead
          have hminlt : minSizeOf t.leafMax < t.leafMax := by omega
          have h2 : 2 ≤ t.leafMax := minSize_two_le hminlt
          have hkeeplen : (ln.entries.take (minSizeOf t.leafMax)).length =
              minSizeOf t.leafMax := by
            rw [List.length_take]
            omega
          have hT1 : LeafOK { t with nextPid := t.nextPid + 1 } := LeafOK_bumpNext h
          have hnp : t.nextPid ≠ INVALID_PID := nextPid_ne_invalid h
          -- the two halves stay within max_size in both insertion cases
          by_cases hcmp : mid.1 < k
          · simp only [if_pos hcmp] at hip
            have hT2 : LeafOK (setNode { t with nextPid := t.nextPid + 1 } lp
                (.leaf ⟨ln.parent, t.nextPid, t.leafMax,
                  ln.entries.take (minSizeOf t.leafMax)⟩)) :=
              LeafOK_set_leaf hT1 hlp
                (by
                  show (ln.entries.take (minSizeOf t.leafMax)).length ≤ t.leafMax
                  rw [hkeeplen]
                  omega)
                rfl hpar
            have hT3 := @LeafOK_set_leaf _ _
              ⟨ln.parent, ln.next, t.leafMax,
                leafInsert k v (ln.entries.drop (minSizeOf t.leafMax))⟩ hT2 hnp
              (by
                show (leafInsert k v (ln.entries.drop (minSizeOf t.leafMax))).length ≤
                  t.leafMax
                have hle := leafInsert_length_le k v (ln.entries.drop (minSizeOf t.leafMax))
                have hmp := minSize_pos h2
                omega)
              rfl (fun _ => h2)
            obtain ⟨hA, hB⟩ := insertIntoParent_pres fuel hT3 h2 hip
            exact ⟨hA, hB⟩
          · simp only [if_neg hcmp] at hip
            have hT2 : LeafOK (setNode { t with nextPid := t.nextPid + 1 } lp
                (.leaf ⟨ln.parent, t.nextPid, t.leafMax,
                  leafInsert k v (ln.entries.take (minSizeOf t.leafMax))⟩)) :=
              LeafOK_set_leaf hT1 hlp
                (by
                  show (leafInsert k v (ln.entries.take (minSizeOf t.leafMax))).length ≤
                    t.leafMax
                  have hle := leafInsert_length_le k v (ln.entries.take (minSizeOf t.leafMax))
                  have hm1 := minSize_add_one_le h2
                  omega)
                rfl hpar
            have hT3 := @LeafOK_set_leaf _ _
              ⟨ln.parent, ln.next, t.leafMax,
                ln.entries.drop (minSizeOf t.leafMax)⟩ hT2 hnp
              (by
                show (ln.entries.drop (minSizeOf t.leafMax)).length ≤ t.leafMax
                omega)
              rfl (fun _ => h2)
            obtain ⟨hA, hB⟩ := insertIntoParent_pres fuel hT3 h2 hip
            exact ⟨hA, hB⟩

/-- `Insert` preserves the leaf invariant. -/
theorem insert_pres {t t' : Tree} {k : Int} {v fuel : Nat} {b : Bool}
    (h : LeafOK t) (hi : insert t k v fuel = some (b, t')) :
    LeafOK t' ∧ t'.leafMax = t.leafMax := by
  unfold insert at hi
  by_cases hroot : t.rootPid = INVALID_PID
  · rw [if_pos hroot] at hi
    obtain ⟨hA, hB⟩ := insertIntoLeaf_pres (startNewTree_pres k v h) hi
    exact ⟨hA, hB⟩
  · rw [if_neg hroot] at hi
    exact insertIntoLeaf_pres h hi

/-- Setting the parent pointer of a node fetched from the same tree
preserves the invariant. -/
theorem LeafOK_set_parent_fetched {t0 : Tree} {p : Pid} {n : Node} (h0 : LeafOK t0)
    (hp : t0.arena p = some n) {q : Pid} (pp : Pid) (hq : q ≠ INVALID_PID)
    (h2 : 2 ≤ t0.leafMax) : LeafOK (setNode t0 q (setParent n pp)) := by
  match n with
  | .leaf ln =>
    obtain ⟨hlen, hmax, _⟩ := h0.2.2 p ln hp
    exact LeafOK_set_leaf h0 hq hlen hmax fun _ => h2
  | .internal nn => exact LeafOK_set_internal h0 hq

theorem foldl_delNode_leafMax :
    ∀ (l : List Pid) (t : Tree), (l.foldl delNode t).leafMax = t.leafMax := by
  intro l
  induction l with
  | nil => intro t; rfl
  | cons p rest ih => intro t; exact ih (delNode t p)

/-- The leaf overload of `Redistribute` preserves the invariant when the
deficient node holds at most `min_size` entries. -/
theorem redistributeLeaf_pres {t t' : Tree} {nodePid siblingPid parentPid : Pid}
    {ln sn : LeafNode} {pn : InternalNode} {idx siblingIdx : Nat} {sil : Bool}
    (h : LeafOK t) (h2 : 2 ≤ t.leafMax)
    (hnode : t.arena nodePid = some (.leaf ln))
    (hsib : t.arena siblingPid = some (.leaf sn))
    (hpp : parentPid ≠ INVALID_PID)
    (hle : ln.entries.length ≤ minSizeOf t.leafMax)
    (hrd : redistributeLeaf t nodePid ln siblingPid sn parentPid pn idx siblingIdx sil =
      some t') :
    LeafOK t' ∧ t'.leafMax = t.leafMax := by
  obtain ⟨_, hmaxn, _⟩ := h.2.2 nodePid ln hnode
  obtain ⟨hlens, hmaxs, _⟩ := h.2.2 siblingPid sn hsib
  have hnpid := fetched_ne_invalid h hnode
  have hspid := fetched_ne_invalid h hsib
  have hm1 := minSize_add_one_le h2
  simp only [redistributeLeaf] at hrd
  split at hrd
  · -- left sibling: MoveLastToFrontOf
    split at hrd
    · exact Option.noConfusion hrd
    · rename_i last hlast
      have hT1 : LeafOK (setNode t siblingPid (.leaf { sn with entries := sn.entries.dropLast })) :=
        LeafOK_set_leaf h hspid
          (by
            show (sn.entries.dropLast).length ≤ t.leafMax
            rw [List.length_dropLast]
            omega)
          hmaxs fun _ => h2
      have hT2 : LeafOK (setNode (setNode t siblingPid
          (.leaf { sn with entries := sn.entries.dropLast })) nodePid
          (.leaf { ln with entries := last :: ln.entries })) :=
        LeafOK_set_leaf hT1 hnpid
          (by
            show (last :: ln.entries).length ≤ t.leafMax
            rw [List.length_cons]
            omega)
          hmaxn fun _ => h2
      split at hrd
      · exact Option.noConfusion hrd
      · rw [Option.map_eq_some'] at hrd
        obtain ⟨pn', _, rfl⟩ := hrd
        exact ⟨LeafOK_set_internal hT2 hpp, rfl⟩
  · -- right sibling: MoveFirstToEndOf
    split at hrd
    · exact Option.noConfusion hrd
    · rename_i first hfirst
      have hT1 : LeafOK (setNode t siblingPid (.leaf { sn with entries := sn.entries.tail })) :=
        LeafOK_set_leaf h hspid
          (by
            show (sn.entries.tail).length ≤ t.leafMax
            rw [List.length_tail]
            omega)
          hmaxs fun _ => h2
      have hT2 : LeafOK (setNode (setNode t siblingPid
          (.leaf { sn with entries := sn.entries.tail })) nodePid
          (.leaf { ln with entries := ln.entries ++ [first] })) :=
        LeafOK_set_leaf hT1 hnpid
          (by
            show (ln.entries ++ [first]).length ≤ t.leafMax
            rw [List.length_append]
            simp only [List.length_singleton]
            omega)
          hmaxn fun _ => h2
      split at hrd
      · exact Option.noConfusion hrd
      · rw [Option.map_eq_some'] at hrd
        obtain ⟨pn', _, rfl⟩ := hrd
        exact ⟨LeafOK_set_internal hT2 hpp, rfl⟩

/-- The leaf overload of `Coalesce` preserves the invariant: the guard
`sibling.size + node.size ≤ sibling.max_size` bounds the merged page. -/
theorem coalesceLeaf_pres {t t' : Tree} {nodePid siblingPid parentPid deadPid : Pid}
    {ln sn : LeafNode} {pn : InternalNode} {idx siblingIdx : Nat} {sil : Bool}
    (h : LeafOK t) (h2 : 2 ≤ t.leafMax)
    (hnode : t.arena nodePid = some (.leaf ln))
    (hsib : t.arena siblingPid = some (.leaf sn))
    (hpp : parentPid ≠ INVALID_PID)
    (hcomb : sn.entries.length + ln.entries.length ≤ sn.maxSize)
    (hcl : coalesceLeaf t nodePid ln siblingPid sn parentPid pn idx siblingIdx sil =
      some (t', deadPid)) :
    LeafOK t' ∧ t'.leafMax = t.leafMax := by
  obtain ⟨hlenn, hmaxn, _⟩ := h.2.2 nodePid ln hnode
  obtain ⟨hlens, hmaxs, _⟩ := h.2.2 siblingPid sn hsib
  have hnpid := fetched_ne_invalid h hnode
  have hspid := fetched_ne_invalid h hsib
  rw [hmaxs] at hcomb
  simp only [coalesceLeaf] at hcl
  split at hcl
  · have hT1 : LeafOK (setNode t siblingPid
        (.leaf { sn with entries := sn.entries ++ ln.entries, next := ln.next })) :=
      LeafOK_set_leaf h hspid
        (by
          show (sn.entries ++ ln.entries).length ≤ t.leafMax
          rw [List.length_append]
          omega)
        hmaxs fun _ => h2
    have hT2 : LeafOK (setNode (setNode t siblingPid
        (.leaf { sn with entries := sn.entries ++ ln.entries, next := ln.next })) nodePid
        (.leaf { ln with entries := [] })) :=
      LeafOK_set_leaf hT1 hnpid (by simp) hmaxn fun _ => h2
    rw [Option.map_eq_some'] at hcl
    obtain ⟨pn', _, hs⟩ := hcl
    injection hs with hs1 hs2
    subst hs1
    exact ⟨LeafOK_set_internal hT2 hpp, rfl⟩
  · have hT1 : LeafOK (setNode t nodePid
        (.leaf { ln with entries := ln.entries ++ sn.entries, next := sn.next })) :=
      LeafOK_set_leaf h hnpid
        (by
          show (ln.entries ++ sn.entries).length ≤ t.leafMax
          rw [List.length_append]
          omega)
        hmaxn fun _ => h2
    have hT2 : LeafOK (setNode (setNode t nodePid
        (.leaf { ln with entries := ln.entries ++ sn.entries, next := sn.next })) siblingPid
        (.leaf { sn with entries := [] })) :=
      LeafOK_set_leaf hT1 hspid (by simp) hmaxs fun _ => h2
    rw [Option.map_eq_some'] at hcl
    obtain ⟨pn', _, hs⟩ := hcl
    injection hs with hs1 hs2
    subst hs1
    exact ⟨LeafOK_set_internal hT2 hpp, rfl⟩

/-- The internal overload of `Redistribute` preserves the invariant (it
touches internal pages and one child's parent pointer). -/
theorem redistributeInternal_pres {t t' : Tree} {nodePid siblingPid parentPid : Pid}
    {nd sd : InternalNode} {pn : InternalNode} {idx siblingIdx : Nat} {sil : Bool}
    (h : LeafOK t) (h2 : 2 ≤ t.leafMax)
    (hnode : t.arena nodePid = some (.internal nd))
    (hsib : t.arena siblingPid = some (.internal sd))
    (hpp : parentPid ≠ INVALID_PID)
    (hrd : redistributeInternal t nodePid nd siblingPid sd parentPid pn idx siblingIdx sil =
      some t') :
    LeafOK t' ∧ t'.leafMax = t.leafMax := by
  have hnpid := fetched_ne_invalid h hnode
  have hspid := fetched_ne_invalid h hsib
  simp only [redistributeInternal] at hrd
  split at hrd
  · split at hrd
    · exact Option.noConfusion hrd
    · rename_i se hse
      split at hrd
      · exact Option.noConfusion hrd
      · rename_i sb hsb
        have hT2 : LeafOK (setNode (setNode t nodePid (.internal
            { nd with x := sb.2, entries := (se.1, nd.x) :: nd.entries })) siblingPid
            (.internal { sd with entries := sd.entries.dropLast })) :=
          LeafOK_set_internal (LeafOK_set_internal h hnpid) hspid
        split at hrd
        · exact Option.noConfusion hrd
        · rename_i trans hch
          have hT3 := LeafOK_set_parent_fetched hT2 hch nodePid
            (fetched_ne_invalid hT2 hch) h2
          split at hrd
          · exact Option.noConfusion hrd
          · rw [Option.map_eq_some'] at hrd
            obtain ⟨pn2, _, rfl⟩ := hrd
            exact ⟨LeafOK_set_internal hT3 hpp, rfl⟩
  · split at hrd
    · exact Option.noConfusion hrd
    · rename_i se hse
      have hT1 : LeafOK (setNode t nodePid (.internal
          { nd with entries := nd.entries ++ [(se.1, sd.x)] })) :=
        LeafOK_set_internal h hnpid
      split at hrd
      · exact Option.noConfusion hrd
      · rename_i trans hch
        have hT2 := LeafOK_set_parent_fetched hT1 hch nodePid
          (fetched_ne_invalid hT1 hch) h2
        split at hrd
        · exact Option.noConfusion hrd
        · rename_i sf hsf
          have hT3 : LeafOK (setNode (setNode (setNode t nodePid (.internal
              { nd with entries := nd.entries ++ [(se.1, sd.x)] })) sd.x
              (setParent trans nodePid)) siblingPid
              (.internal { sd with x := sf.2, entries := sd.entries.tail })) :=
            LeafOK_set_internal hT2 hspid
          split at hrd
          · exact Option.noConfusion hrd
          · rw [Option.map_eq_some'] at hrd
            obtain ⟨pn2, _, rfl⟩ := hrd
            exact ⟨LeafOK_set_internal hT3 hpp, rfl⟩

/-- The internal overload of `Coalesce` preserves the invariant. -/
theorem coalesceInternal_pres {t t' : Tree} {nodePid siblingPid parentPid deadPid : Pid}
    {nd sd : InternalNode} {pn : InternalNode} {idx siblingIdx : Nat} {sil : Bool}
    (h : LeafOK t) (h2 : 2 ≤ t.leafMax)
    (hnode : t.arena nodePid = some (.internal nd))
    (hsib : t.arena siblingPid = some (.internal sd))
    (hpp : parentPid ≠ INVALID_PID)
    (hcl : coalesceInternal t nodePid nd siblingPid sd parentPid pn idx siblingIdx sil =
      some (t', deadPid)) :
    LeafOK t' ∧ t'.leafMax = t.leafMax := by
  have hnpid := fetched_ne_invalid h hnode
  have hspid := fetched_ne_invalid h hsib
  simp only [coalesceInternal] at hcl
  split at hcl
  · split at hcl
    · exact Option.noConfusion hcl
    · rename_i se hse
      have hT2 : LeafOK (setNode (setNode t siblingPid (.internal
          { sd with entries := sd.entries ++ (se.1, nd.x) :: nd.entries })) nodePid
          (.internal { nd with entries := [] })) :=
        LeafOK_set_internal (LeafOK_set_internal h hspid) hnpid
      split at hcl
      · exact Option.noConfusion hcl
      · rename_i t3 hrep
        obtain ⟨hOK3, hlm3⟩ := reparent_pres _ _ _ hT2 h2 hrep
        rw [Option.map_eq_some'] at hcl
        obtain ⟨pn2, _, hs⟩ := hcl
        injection hs with hs1 hs2
        subst hs1
        exact ⟨LeafOK_set_internal hOK3 hpp, hlm3⟩
  · split at hcl
    · exact Option.noConfusion hcl
    · rename_i se hse
      have hT2 : LeafOK (setNode (setNode t nodePid (.internal
          { nd with entries := nd.entries ++ (se.1, sd.x) :: sd.entries })) siblingPid
          (.internal { sd with entries := [] })) :=
        LeafOK_set_internal (LeafOK_set_internal h hnpid) hspid
      split at hcl
      · exact Option.noConfusion hcl
      · rename_i t3 hrep
        obtain ⟨hOK3, hlm3⟩ := reparent_pres _ _ _ hT2 h2 hrep
        rw [Option.map_eq_some'] at hcl
        obtain ⟨pn2, _, hs⟩ := hcl
        injection hs with hs1 hs2
        subst hs1
        exact ⟨LeafOK_set_internal hOK3 hpp, hlm3⟩

mutual

/-- `CoalesceOrRedistribute` preserves the leaf invariant; the node it
is called on, when a leaf, holds at most `min_size` entries (guaranteed
by the unsafe-leaf path of `Remove`). -/
theorem coalesceOrRedistribute_pres :
    ∀ (fuel : Nat) (t : Tree) (nodePid : Pid) (t' : Tree) (dead : List Pid),
      LeafOK t → 2 ≤ t.leafMax →
      (∀ ln, t.arena nodePid = some (.leaf ln) →
        ln.entries.length ≤ minSizeOf t.leafMax) →
      coalesceOrRedistribute t nodePid fuel = some (t', dead) →
      LeafOK t' ∧ t'.leafMax = t.leafMax
  | 0, t, nodePid, t', dead, _, _, _, hcor => by
    rw [coalesceOrRedistribute] at hcor
    exact Option.noConfusion hcor
  | fuel + 1, t, nodePid, t', dead, h, h2, hpre, hcor => by
    simp only [coalesceOrRedistribute] at hcor
    split at hcor
    · exact Option.noConfusion hcor
    · rename_i nodeN hnodeN
      split at hcor
      case h_2 => exact Option.noConfusion hcor
      rename_i pn hpn
      have hpp : nodeParent nodeN ≠ INVALID_PID := fetched_ne_invalid h hpn
      split at hcor
      · exact Option.noConfusion hcor
      · rename_i idx hidx
        split at hcor
        · exact Option.noConfusion hcor
        · rename_i siblingPid hsibPid
          split at hcor
          · -- leaf node with leaf sibling
            rename_i ln sn hsn
            split at hcor
            · -- redistribute
              rw [Option.map_eq_some'] at hcor
              obtain ⟨t1, hrd, hs⟩ := hcor
              injection hs with hs1 hs2
              subst hs1
              exact redistributeLeaf_pres h h2 hnodeN hsn hpp (hpre ln hnodeN) hrd
            · -- coalesce, then the post-merge parent handling
              rename_i hguard
              split at hcor
              · exact Option.noConfusion hcor
              · rename_i t1 deadPid hclf
                obtain ⟨hOK1, hlm1⟩ := coalesceLeaf_pres h h2 hnodeN hsn hpp
                  (by omega) hclf
                obtain ⟨hA, hB⟩ := afterCoalesce_pres fuel t1 _ deadPid
                  t' dead hOK1 (by rw [hlm1]; exact h2) hcor
                exact ⟨hA, hB.trans hlm1⟩
          · -- internal node with internal sibling
            rename_i nd sd hsd
            split at hcor
            · rw [Option.map_eq_some'] at hcor
              obtain ⟨t1, hrd, hs⟩ := hcor
              injection hs with hs1 hs2
              subst hs1
              exact redistributeInternal_pres h h2 hnodeN hsd hpp hrd
            · split at hcor
              · exact Option.noConfusion hcor
              · rename_i t1 deadPid hcli
                obtain ⟨hOK1, hlm1⟩ := coalesceInternal_pres h h2 hnodeN hsd hpp hcli
                obtain ⟨hA, hB⟩ := afterCoalesce_pres fuel t1 _ deadPid
                  t' dead hOK1 (by rw [hlm1]; exact h2) hcor
                exact ⟨hA, hB.trans hlm1⟩
          · exact Option.noConfusion hcor
termination_by fuel => 2 * fuel

/-- The post-merge phase (root shrink or recursion on a deficient
parent) preserves the leaf invariant. -/
theorem afterCoalesce_pres :
    ∀ (fuel : Nat) (t : Tree) (parentPid deadPid : Pid) (t' : Tree) (dead : List Pid),
      LeafOK t → 2 ≤ t.leafMax →
      afterCoalesce t parentPid deadPid fuel = some (t', dead) →
      LeafOK t' ∧ t'.leafMax = t.leafMax := by
  intro fuel t parentPid deadPid t' dead h h2 hac
  unfold afterCoalesce at hac
  split at hac
  case h_2 => exact Option.noConfusion hac
  rename_i pn hpn
  split at hac
  · -- parent is the root
    split at hac
    · cases hac
      exact ⟨h, rfl⟩
    · split at hac
      · exact Option.noConfusion hac
      · rename_i child hchild
        cases hac
        refine ⟨LeafOK_setRoot ?_, rfl⟩
        exact LeafOK_set_parent_fetched h hchild pn.parent
          (fetched_ne_invalid h hchild) h2
  · split at hac
    · -- recurse on the deficient parent
      rw [Option.map_eq_some'] at hac
      obtain ⟨⟨t2, dead2⟩, hcor, hs⟩ := hac
      injection hs with hs1 hs2
      subst hs1
      exact coalesceOrRedistribute_pres fuel t parentPid t2 dead2 h h2
        (fun ln hln => by rw [hpn] at hln; simp at hln) hcor
    · cases hac
      exact ⟨h, rfl⟩
termination_by fuel _ _ _ _ _ => 2 * fuel + 1

end

/-- `Remove` preserves the leaf invariant: a safe leaf only shrinks, and
the unsafe path hands `CoalesceOrRedistribute` a node of at most
`min_size` entries. -/
theorem remove_pres {t t' : Tree} {k : Int} {fuel : Nat}
    (h : LeafOK t) (hr : remove t k fuel = some t') :
    LeafOK t' ∧ t'.leafMax = t.leafMax := by
  unfold remove at hr
  split at hr
  · cases hr
    exact ⟨h, rfl⟩
  · split at hr
    · exact Option.noConfusion hr
    · rename_i lp ln hfl
      have hmem : t.arena lp = some (.leaf ln) := findLeafGo_mem hfl
      obtain ⟨hlen, hmax, hpar⟩ := h.2.2 lp ln hmem
      have hlp : lp ≠ INVALID_PID := fetched_ne_invalid h hmem
      have hremle := leafRemove_length_le k ln.entries
      split at hr
      · -- safe leaf: delete in place
        cases hr
        refine ⟨LeafOK_set_leaf h hlp ?_ hmax hpar, rfl⟩
        show (leafRemove k ln.entries).length ≤ t.leafMax
        omega
      · -- unsafe leaf
        rename_i hunsafe
        push_neg at hunsafe
        obtain ⟨hpne, hsz⟩ := hunsafe
        have h2 : 2 ≤ t.leafMax := hpar hpne
        rw [hmax] at hsz
        have hT1 : LeafOK (setNode t lp
            (.leaf { ln with entries := leafRemove k ln.entries })) :=
          LeafOK_set_leaf h hlp (by show (leafRemove k ln.entries).length ≤ t.leafMax; omega)
            hmax hpar
        simp only [] at hr
        split at hr
        · exact Option.noConfusion hr
        · rename_i t2 dead hcor
          cases hr
          have hpre : ∀ ln', (setNode t lp
              (.leaf { ln with entries := leafRemove k ln.entries })).arena lp =
                some (.leaf ln') →
              ln'.entries.length ≤
                minSizeOf (setNode t lp
                  (.leaf { ln with entries := leafRemove k ln.entries })).leafMax := by
            intro ln' hln'
            simp only [setNode, if_pos] at hln'
            simp only [Option.some.injEq, Node.leaf.injEq] at hln'
            subst hln'
            show (leafRemove k ln.entries).length ≤ minSizeOf t.leafMax
            omega
          obtain ⟨hA, hB⟩ := coalesceOrRedistribute_pres fuel _ lp t2 dead hT1 h2 hpre hcor
          refine ⟨LeafOK_del_foldl hA, ?_⟩
          rw [foldl_delNode_leafMax]
          exact hB

theorem initTree_LeafOK {lm im : Nat} : LeafOK (initTree lm im) := by
  refine ⟨rfl, le_refl 1, ?_⟩
  intro p ln hp
  exact Option.noConfusion hp

/-- C3 core: every tree state reachable by terminating `Insert` /
`Remove` sequences satisfies the leaf-occupancy invariant, and its
`leaf_max_size` is the construction parameter. -/
theorem reachT_LeafOK {lm im : Nat} {t : Tree} (h : ReachT lm im t) :
    LeafOK t ∧ t.leafMax = lm := by
  induction h with
  | init => exact ⟨initTree_LeafOK, rfl⟩
  | ins _ hstep ih =>
    obtain ⟨hOK, hlm⟩ := ih
    obtain ⟨hA, hB⟩ := insert_pres hOK hstep
    exact ⟨hA, hB.trans hlm⟩
  | rem _ hstep ih =>
    obtain ⟨hOK, hlm⟩ := ih
    obtain ⟨hA, hB⟩ := remove_pres hOK hstep
    exact ⟨hA, hB.trans hlm⟩

end BPT

/-! ## Claim theorems -/

namespace LRUK

/-- C2 (corrected): whenever `Evict` succeeds, the returned frame is an
evictable tracked frame that no other evictable frame beats under the
code's comparison: no evictable frame with `k` accesses has a smaller
k-th most recent timestamp when the victim has `k` accesses, no frame
with fewer than `k` accesses exists when the victim has `k` accesses,
and — the corrected tie-break — among frames with fewer than `k`
accesses none has a smaller MOST RECENT access timestamp (plain LRU on
the last access, not the claimed smallest earliest-access timestamp). -/
theorem lruk_evict_policy {r : Replacer} {f : Nat} {r' : Replacer}
    (h : evict r = some (some f, r')) :
    ∃ ef : LRUEntry, r.data.get? f = some (some ef) ∧ ef.evictable = true ∧
      ∀ g eg, r.data.get? g = some (some eg) → eg.evictable = true →
        ¬((ef.t.length = r.k ∧ eg.t.length = r.k ∧ eg.t.getLastD 0 < ef.t.getLastD 0) ∨
          (ef.t.length = r.k ∧ eg.t.length < r.k) ∨
          (ef.t.length < r.k ∧ eg.t.length < r.k ∧ eg.t.headD 0 < ef.t.headD 0)) := by
  unfold evict at h
  split at h
  · simp at h
  · split at h
    · exact Option.noConfusion h
    · rename_i f1 e hsel
      simp only [Option.some.injEq, Prod.mk.injEq] at h
      obtain ⟨hf, _⟩ := h
      cases hf
      unfold evictSelect at hsel
      obtain ⟨hdom, hsrc⟩ := selStep_foldl_sound r.k r.data.enum none (f, e) hsel
      rcases hsrc with hsrc | ⟨hmem, hev⟩
      · exact Option.noConfusion hsrc
      refine ⟨e, ?_, hev, ?_⟩
      · rw [List.get?_eq_getElem?]
        exact List.mk_mem_enum_iff_getElem?.mp hmem
      · intro g eg hg hgev
        rw [← better_false_iff]
        rw [List.get?_eq_getElem?] at hg
        exact hdom g eg (List.mk_mem_enum_iff_getElem?.mpr hg) hgev

theorem lruk_evict_policy_witness :
    ∃ ef : LRUEntry, c2w.data.get? 1 = some (some ef) ∧ ef.evictable = true ∧
      ∀ g eg, c2w.data.get? g = some (some eg) → eg.evictable = true →
        ¬((ef.t.length = c2w.k ∧ eg.t.length = c2w.k ∧
            eg.t.getLastD 0 < ef.t.getLastD 0) ∨
          (ef.t.length = c2w.k ∧ eg.t.length < c2w.k) ∨
          (ef.t.length < c2w.k ∧ eg.t.length < c2w.k ∧ eg.t.headD 0 < ef.t.headD 0)) :=
  lruk_evict_policy (show evict c2w = some (some 1, c2wAfter) from rfl)

/-- C2 counterexample: after the run `c2run` (`k = 3`) both frames are
evictable with fewer than `k` recorded accesses; frame 0's earliest
access (`t = 0`, the tail of its history) precedes frame 1's earliest
(`t = 1`), so the claimed rule must evict frame 0 — yet `Evict` returns
frame 1 (the one with the smaller most recent access). -/
theorem lruk_evict_tiebreak_cex :
    c2run = some c2r ∧
    (evict c2r).map Prod.fst = some (some 1) ∧
    c2r.data = [some ⟨[3, 0], true⟩, some ⟨[2, 1], true⟩] ∧
    c2r.k = 3 ∧
    ([3, 0] : List Nat).length < 3 ∧ ([2, 1] : List Nat).length < 3 ∧
    ([3, 0] : List Nat).getLastD 0 < ([2, 1] : List Nat).getLastD 0 :=
  ⟨by decide, by decide, rfl, rfl, by decide, by decide, by decide⟩

end LRUK

namespace BPT

/-- C1: the round-trip law fails on the freshly constructed (empty)
tree: `Remove(1)` completes (it returns as soon as `IsEmpty()` holds),
but the subsequent `GetValue(1)` does not return false — lacking the
`IsEmpty` guard, it descends from `root_page_id_ = INVALID_PAGE_ID`,
i.e. fetches an invalid page (modelled `none`, undefined behaviour in
the C++ code). -/
theorem bpt_roundtrip_empty_cex :
    (remove (initTree 3 3) 1 10).isSome = true ∧
    getValue (initTree 3 3) 1 10 = none ∧
    (initTree 3 3).rootPid = INVALID_PID :=
  ⟨rfl, rfl, rfl⟩

theorem c3t4_reach : ReachT 3 3 c3t4 :=
  @ReachT.ins 3 3 c3t3 c3t4 true 4 40 30
    (@ReachT.ins 3 3 c3t2 c3t3 true 3 30 30
      (@ReachT.ins 3 3 c3t1 c3t2 true 2 20 30
        (@ReachT.ins 3 3 (initTree 3 3) c3t1 true 1 10 30 ReachT.init rfl)
        rfl)
      rfl)
    rfl

theorem c3t5_reach : ReachT 3 3 c3t5 :=
  @ReachT.ins 3 3 c3t4 c3t5 true 5 50 30 c3t4_reach rfl

/-- `Remove(5)` on the tree with keys 1..4 returns the rebalanced state
`c3tB` (one unfolding of the `CoalesceOrRedistribute` recursion; the
call takes the leaf-redistribution branch and never recurses). -/
theorem c3tB_remove : remove c3t4 5 30 = some c3tB := by
  have hC : coalesceOrRedistribute
      (setNode c3t4 2 (.leaf ⟨3, -1, 3, [(3, 30), (4, 40)]⟩)) 2 30 =
      some (c3tB, []) := by
    show coalesceOrRedistribute
      (setNode c3t4 2 (.leaf ⟨3, -1, 3, [(3, 30), (4, 40)]⟩)) 2 (29 + 1) =
      some (c3tB, [])
    unfold coalesceOrRedistribute
    rfl
  show (match coalesceOrRedistribute
      (setNode c3t4 2 (.leaf ⟨3, -1, 3, [(3, 30), (4, 40)]⟩)) 2 30 with
    | none => none
    | some (t2, dead) => some (dead.foldl delNode t2)) = some c3tB
  rw [hC]
  rfl

theorem c3tB_reach : ReachT 3 3 c3tB :=
  @ReachT.rem 3 3 c3t4 c3tB 5 30 c3t4_reach c3tB_remove

/-- C3 (corrected): in every tree state reachable by sequences of
`Insert` and `Remove`, every leaf page holds at most `leaf_max_size`
entries (not `max_size − 1`: a leaf is split only by the insertion that
finds it already full), and its `max_size` field is the construction
parameter.  The claimed lower bound `min_size` is not an invariant —
see the counterexample. -/
theorem bpt_leaf_occupancy {lm im : Nat} {t : Tree} (h : ReachT lm im t) :
    ∀ p ln, t.arena p = some (.leaf ln) →
      ln.entries.length ≤ lm ∧ ln.maxSize = lm := by
  obtain ⟨hOK, hlm⟩ := reachT_LeafOK h
  intro p ln hp
  obtain ⟨h1, h2, _⟩ := hOK.2.2 p ln hp
  exact ⟨hlm ▸ h1, hlm ▸ h2⟩

theorem bpt_leaf_occupancy_witness :
    (⟨3, -1, 3, [(3, 30), (4, 40), (5, 50)]⟩ : LeafNode).entries.length ≤ 3 ∧
    (⟨3, -1, 3, [(3, 30), (4, 40), (5, 50)]⟩ : LeafNode).maxSize = 3 :=
  bpt_leaf_occupancy c3t5_reach 2 ⟨3, -1, 3, [(3, 30), (4, 40), (5, 50)]⟩ rfl

/-- C3 counterexample: with `leaf_max_size = 3` (`min_size = 2`), after
inserting keys 1..5 the reachable tree `c3t5` has the non-root leaf
page 2 holding 3 = `max_size` > `max_size − 1` entries; and after
inserting 1..4 and removing the ABSENT key 5 the reachable tree `c3tB`
has the non-root leaf page 1 holding 1 < `min_size` entries (the remove
triggers a redistribution that drains the sibling). -/
theorem bpt_leaf_occupancy_cex :
    (ReachT 3 3 c3t5 ∧
      c3t5.arena 2 = some (.leaf ⟨3, -1, 3, [(3, 30), (4, 40), (5, 50)]⟩) ∧
      (⟨3, -1, 3, [(3, 30), (4, 40), (5, 50)]⟩ : LeafNode).parent ≠ INVALID_PID ∧
      ¬((⟨3, -1, 3, [(3, 30), (4, 40), (5, 50)]⟩ : LeafNode).entries.length ≤
          c3t5.leafMax - 1)) ∧
    (ReachT 3 3 c3tB ∧
      c3tB.arena 1 = some (.leaf ⟨3, 2, 3, [(1, 10)]⟩) ∧
      (⟨3, 2, 3, [(1, 10)]⟩ : LeafNode).parent ≠ INVALID_PID ∧
      ¬(minSizeOf c3tB.leafMax ≤ (⟨3, 2, 3, [(1, 10)]⟩ : LeafNode).entries.length)) :=
  ⟨⟨c3t5_reach, rfl, by decide, by decide⟩, ⟨c3tB_reach, rfl, by decide, by decide⟩⟩

end BPT

namespace EHash

/-- The overwrite scan succeeds on any item list that holds the key,
and the updated list yields the new value. -/
theorem findPair_update [DecidableEq K] {k : K} (v' : V) :
    ∀ {items : List (K × V)} {v0 : V}, findPair k items = some v0 →
      ∃ items', updatePair k v' items = some items' ∧ findPair k items' = some v' := by
  intro items
  induction items with
  | nil => intro v0 h; exact absurd h (by simp [findPair])
  | cons p rest ih =>
    intro v0 h
    obtain ⟨k0, w⟩ := p
    by_cases hk : k0 = k
    · refine ⟨(k0, v') :: rest, ?_, ?_⟩
      · simp [updatePair, hk]
      · simp [findPair, hk]
    · simp only [findPair, if_neg hk] at h
      obtain ⟨items', h1, h2⟩ := ih h
      refine ⟨(k0, w) :: items', ?_, ?_⟩
      · simp [updatePair, hk, h1]
      · simp [findPair, hk, h2]

/-- C4 (corrected): the frame property of the upsert only holds when the
bucket holding the key is NOT full — `Bucket::Insert` tests `IsFull()`
before the existing-key scan, so a full bucket rejects the overwrite and
`Insert` splits (see the counterexample).  With spare room the overwrite
happens in place: `GlobalDepth`, the directory and `NumBuckets` are
unchanged and `Find` afterwards returns the new value. -/
theorem ehash_upsert [DecidableEq K] {t t' : Table K V} {k : K} {v' : V}
    {fuel : Nat} {bid : Nat}
    (hbid : t.dir.get? (indexOf t k) = some bid)
    (hfound : ∃ v0, findPair k (t.store bid).items = some v0)
    (hroom : (t.store bid).items.length < (t.store bid).capacity)
    (h : insertGo fuel t k v' = some t') :
    t'.globalDepth = t.globalDepth ∧ t'.dir = t.dir ∧ t'.numBuckets = t.numBuckets ∧
    find t' k = some (some v') := by
  obtain ⟨v0, hv0⟩ := hfound
  obtain ⟨items', hu, hf⟩ := findPair_update v' hv0
  have hbi : bucketInsert (t.store bid) k v' =
      some { t.store bid with items := items' } := by
    unfold bucketInsert
    rw [if_neg (Nat.not_le.mpr hroom), hu]
  match fuel with
  | 0 => exact Option.noConfusion h
  | fuel + 1 =>
    simp only [insertGo] at h
    split at h
    · exact Option.noConfusion h
    · rename_i bid1 hbid1
      rw [hbid] at hbid1
      injection hbid1 with hb
      subst hb
      split at h
      case _ b' hbi1 =>
        rw [hbi] at hbi1
        injection hbi1 with hb2
        subst hb2
        simp only [Option.some.injEq] at h
        subst h
        refine ⟨rfl, rfl, rfl, ?_⟩
        unfold find
        have hidx : indexOf (setStore t bid { t.store bid with items := items' }) k =
            indexOf t k := rfl
        rw [hidx]
        have hdir : (setStore t bid { t.store bid with items := items' }).dir = t.dir := rfl
        rw [hdir, hbid]
        simp only [setStore, if_pos]
        rw [hf]
      case _ hbi1 =>
        rw [hbi] at hbi1
        exact Option.noConfusion hbi1

theorem ehash_upsert_witness :
    c4wAfter.globalDepth = c4w.globalDepth ∧ c4wAfter.dir = c4w.dir ∧
    c4wAfter.numBuckets = c4w.numBuckets ∧ find c4wAfter 0 = some (some 30) :=
  ehash_upsert (show c4w.dir.get? (indexOf c4w 0) = some 0 from rfl)
    ⟨10, rfl⟩ (by decide) (show insertGo 5 c4w 0 30 = some c4wAfter from rfl)

/-- C4 counterexample: in `c4cex0` (bucket capacity 2, directory `[0]`,
global depth 0) the key 0 is stored with value 10 and its bucket is
full.  `Insert(0, 30)` then has the bucket-level insert FAIL, and the
table splits twice before the overwrite lands: global depth becomes 2,
`NumBuckets` 3 and the directory `[4, 1, 3, 1]` — refuting both "the
bucket-level insertion attempt succeeds" and the claimed frame
property. -/
theorem ehash_upsert_cex :
    find c4cex0 0 = some (some 10) ∧
    bucketInsert (c4cex0.store 0) 0 30 = none ∧
    c4cex0.dir.get? (indexOf c4cex0 0) = some 0 ∧
    insertGo 5 c4cex0 0 30 = some c4cex1 ∧
    c4cex0.globalDepth = 0 ∧ c4cex1.globalDepth = 2 ∧
    c4cex0.numBuckets = 1 ∧ c4cex1.numBuckets = 3 ∧
    c4cex0.dir = [0] ∧ c4cex1.dir = [4, 1, 3, 1] ∧
    find c4cex1 0 = some (some 30) :=
  ⟨rfl, rfl, rfl, rfl, rfl, rfl, rfl, rfl, rfl, rfl, rfl⟩

/-- C6 (confirmed): every table state reachable from the constructor by
terminating `Insert` and `Remove` calls satisfies the directory
invariant: `|dir| = 2^global_depth`, every bucket reachable from the
directory has `local_depth ≤ global_depth`, and any two directory
indices agreeing on the low `local_depth` bits of the first one's
bucket alias the same bucket. -/
theorem ehash_directory_invariant [DecidableEq K] {hash : K → Nat} {bs : Nat}
    {t : Table K V} (h : Reachable hash bs t) :
    t.dir.length = 2 ^ t.globalDepth ∧
    (∀ i, i < t.dir.length → (t.store (t.dir.getD i 0)).depth ≤ t.globalDepth) ∧
    (∀ i j, i < t.dir.length → j < t.dir.length →
      i % 2 ^ (t.store (t.dir.getD i 0)).depth = j % 2 ^ (t.store (t.dir.getD i 0)).depth →
      t.dir.getD i 0 = t.dir.getD j 0) := by
  obtain ⟨h1, h2, h3, _⟩ := reachable_inv h
  exact ⟨h1, h2, h3⟩

theorem ehash_directory_invariant_witness :
    c6w.dir.length = 2 ^ c6w.globalDepth ∧
    (∀ i, i < c6w.dir.length → (c6w.store (c6w.dir.getD i 0)).depth ≤ c6w.globalDepth) ∧
    (∀ i j, i < c6w.dir.length → j < c6w.dir.length →
      i % 2 ^ (c6w.store (c6w.dir.getD i 0)).depth =
        j % 2 ^ (c6w.store (c6w.dir.getD i 0)).depth →
      c6w.dir.getD i 0 = c6w.dir.getD j 0) :=
  ehash_directory_invariant
    (Reachable.ins
      (Reachable.ins Reachable.init
        (show insertGo 5 (@mkTable Nat Nat natHash 1) 0 10 = some c6w0 from rfl))
      (show insertGo 5 c6w0 1 1 = some c6w from rfl))

end EHash

namespace BPool

/-- Folding `WritePage` over a page list appends one write per page and
touches neither the frame array nor the page table. -/
theorem flush_foldl (pgs : List Page) :
    ∀ m : BPM,
      (pgs.foldl (fun acc pg => writePage acc pg.pageId pg.data) m).diskWrites =
        m.diskWrites ++ pgs.map (fun pg => (pg.pageId, pg.data)) ∧
      (pgs.foldl (fun acc pg => writePage acc pg.pageId pg.data) m).pages = m.pages ∧
      (pgs.foldl (fun acc pg => writePage acc pg.pageId pg.data) m).pageTable =
        m.pageTable := by
  induction pgs with
  | nil => intro m; exact ⟨(List.append_nil _).symm, rfl, rfl⟩
  | cons p rest ih =>
    intro m
    simp only [List.foldl_cons, List.map_cons]
    obtain ⟨h1, h2, h3⟩ := ih (writePage m p.pageId p.data)
    refine ⟨?_, h2, h3⟩
    rw [h1]
    show m.diskWrites ++ [(p.pageId, p.data)] ++ _ = _
    rw [List.append_assoc]
    rfl

/-- C8 (corrected): `FlushAllPages` issues one disk write per FRAME of
the pool, in frame order — `(page_id, data)` of whatever the frame
holds, so free frames are written under `INVALID_PAGE_ID` — then clears
every frame's dirty flag; the page table is untouched. -/
theorem bpool_flushall (m : BPM) :
    (flushAllPages m).diskWrites =
      m.diskWrites ++ m.pages.map (fun pg => (pg.pageId, pg.data)) ∧
    (flushAllPages m).pages = m.pages.map (fun pg => { pg with isDirty := false }) ∧
    (flushAllPages m).pageTable = m.pageTable := by
  obtain ⟨h1, h2, h3⟩ := flush_foldl m.pages m
  exact ⟨h1, by show (m.pages.foldl _ m).pages.map _ = _; rw [h2], h3⟩

/-- C8 counterexample: in the freshly constructed pool `c8m` no frame
holds a page (both frames are on the free list, `page_id =
INVALID_PAGE_ID`), yet `FlushAllPages` issues two disk writes, both
under page id `-1` — refuting "issues no write for frames that hold no
page". -/
theorem bpool_flushall_cex :
    c8m.freeList = [0, 1] ∧
    c8m.pages.map (fun pg => pg.pageId) = [-1, -1] ∧
    c8m.diskWrites = [] ∧
    (flushAllPages c8m).diskWrites = [(-1, 0), (-1, 0)] :=
  ⟨rfl, rfl, rfl, rfl⟩

/-- C7 (confirmed): when `UnpinPage(pid, d)` returns, it returns `false`
exactly when `pid` is not in the page table or the frame's pin count is
already 0 (and then the state is unchanged); otherwise it decrements
the pin count, ORs the dirty flag (a `d = false` call never clears an
already-dirty page), makes the frame evictable exactly when the count
reaches 0, and touches nothing else. -/
theorem bpool_unpin_contract {m : BPM} {pid : Int} {d b : Bool} {m' : BPM}
    (h : unpinPage m pid d = some (b, m')) :
    (b = false ↔
      EHash.find m.pageTable pid = some none ∨
      ∃ f pg, EHash.find m.pageTable pid = some (some f) ∧
        m.pages.get? f = some pg ∧ pg.pinCount = 0) ∧
    (b = false → m' = m) ∧
    (b = true → ∃ f pg, EHash.find m.pageTable pid = some (some f) ∧
      m.pages.get? f = some pg ∧ 0 < pg.pinCount ∧
      m'.pages = m.pages.set f
        ⟨pg.pageId, pg.pinCount - 1, pg.isDirty || d, pg.data⟩ ∧
      (pg.pinCount = 1 → LRUK.setEvictable m.replacer f true = some m'.replacer) ∧
      (pg.pinCount ≠ 1 → m'.replacer = m.replacer) ∧
      m'.pageTable = m.pageTable ∧ m'.freeList = m.freeList ∧
      m'.nextPageId = m.nextPageId ∧ m'.diskWrites = m.diskWrites) := by
  unfold unpinPage at h
  split at h
  · exact Option.noConfusion h
  · rename_i hfind
    injection h with h1
    injection h1 with hb hm
    subst hb
    subst hm
    refine ⟨⟨fun _ => Or.inl hfind, fun _ => rfl⟩, fun _ => rfl,
      fun hbt => absurd hbt (by decide)⟩
  · rename_i f hfind
    split at h
    · exact Option.noConfusion h
    · rename_i pg hpg
      split at h
      · rename_i hpin0
        injection h with h1
        injection h1 with hb hm
        subst hb
        subst hm
        exact ⟨⟨fun _ => Or.inr ⟨f, pg, hfind, hpg, hpin0⟩, fun _ => rfl⟩,
          fun _ => rfl, fun hbt => absurd hbt (by decide)⟩
      · rename_i hpin
        simp only [] at h
        split at h
        · exact Option.noConfusion h
        · rename_i m2 hm2
          injection h with h1
          injection h1 with hb hm
          subst hb
          subst hm
          refine ⟨⟨fun hfb => absurd hfb (by decide), fun hor => ?_⟩,
            fun hfb => absurd hfb (by decide), fun _ => ?_⟩
          · exfalso
            rcases hor with hn | ⟨f', pg', hf', hpg', hp0⟩
            · rw [hfind] at hn
              simp at hn
            · rw [hfind] at hf'
              injection hf' with e1
              injection e1 with e2
              subst e2
              rw [hpg] at hpg'
              injection hpg' with e3
              subst e3
              exact hpin hp0
          · refine ⟨f, pg, hfind, hpg, Nat.pos_of_ne_zero hpin, ?_⟩
            split at hm2
            · -- pin count reached 0: the frame is made evictable
              rename_i hz
              rw [Option.map_eq_some'] at hm2
              obtain ⟨r, hr, hm2e⟩ := hm2
              subst hm2e
              have hone : pg.pinCount = 1 := by omega
              cases d with
              | true =>
                refine ⟨?_, fun _ => hr, fun hne => absurd hone hne, rfl, rfl, rfl, rfl⟩
                show ((m.pages.set f _).set f _ : List Page) = _
                rw [List.set_set, Bool.or_true]
              | false =>
                refine ⟨?_, fun _ => hr, fun hne => absurd hone hne, rfl, rfl, rfl, rfl⟩
                show (m.pages.set f _ : List Page) = _
                rw [Bool.or_false]
            · -- pin count still positive: the replacer is untouched
              rename_i hz
              injection hm2 with hm2e
              subst hm2e
              have hne : pg.pinCount ≠ 1 := by omega
              cases d with
              | true =>
                refine ⟨?_, fun hone => absurd hone hne, fun _ => rfl, rfl, rfl, rfl, rfl⟩
                show ((m.pages.set f _).set f _ : List Page) = _
                rw [List.set_set, Bool.or_true]
              | false =>
                refine ⟨?_, fun hone => absurd hone hne, fun _ => rfl, rfl, rfl, rfl, rfl⟩
                show (m.pages.set f _ : List Page) = _
                rw [Bool.or_false]

theorem bpool_unpin_contract_witness :
    ((true : Bool) = false ↔
      EHash.find c7m.pageTable 0 = some none ∨
      ∃ f pg, EHash.find c7m.pageTable 0 = some (some f) ∧
        c7m.pages.get? f = some pg ∧ pg.pinCount = 0) ∧
    ((true : Bool) = false → c7mAfter = c7m) ∧
    ((true : Bool) = true → ∃ f pg, EHash.find c7m.pageTable 0 = some (some f) ∧
      c7m.pages.get? f = some pg ∧ 0 < pg.pinCount ∧
      c7mAfter.pages = c7m.pages.set f
        ⟨pg.pageId, pg.pinCount - 1, pg.isDirty || true, pg.data⟩ ∧
      (pg.pinCount = 1 → LRUK.setEvictable c7m.replacer f true = some c7mAfter.replacer) ∧
      (pg.pinCount ≠ 1 → c7mAfter.replacer = c7m.replacer) ∧
      c7mAfter.pageTable = c7m.pageTable ∧ c7mAfter.freeList = c7m.freeList ∧
      c7mAfter.nextPageId = c7m.nextPageId ∧ c7mAfter.diskWrites = c7m.diskWrites) :=
  bpool_unpin_contract (show unpinPage c7m 0 true = some (true, c7mAfter) from rfl)

/-- C10 (confirmed): with an empty free list and no evictable frame,
`NewPage` returns no page (`nullptr`) yet the allocation counter has
already been advanced — `AllocatePage()` runs before the
frame-availability check — and nothing else changes. -/
theorem bpool_newpage_allocates_on_failure (fuel : Nat) (m : BPM)
    (hfree : m.freeList = []) (hev : m.replacer.currSize = 0) :
    newPage fuel m = some (none, { m with nextPageId := m.nextPageId + 1 }) := by
  unfold newPage allocatePage LRUK.evict
  dsimp only
  rw [hfree, hev]
  rfl

theorem bpool_newpage_allocates_on_failure_witness :
    newPage 5 c10m = some (none, { c10m with nextPageId := c10m.nextPageId + 1 }) :=
  bpool_newpage_allocates_on_failure 5 c10m rfl rfl

end BPool

namespace BPT

/-- When every key of the page is smaller than `k`, the `KeyIndex` loop
falls through and returns 0 (whatever the start index). -/
theorem keyIndexGo_all_lt {k : Int} :
    ∀ (es : List (Int × Nat)) (i : Nat), (∀ e ∈ es, e.1 < k) → keyIndexGo k i es = 0 := by
  intro es
  induction es with
  | nil => intro i _; rfl
  | cons p rest ih =>
    intro i hall
    obtain ⟨k0, v0⟩ := p
    have hlt : k0 < k := hall (k0, v0) (List.mem_cons_self _ _)
    simp only [keyIndexGo, if_neg (not_le.mpr hlt)]
    exact ih (i + 1) fun e he => hall e (List.mem_cons_of_mem _ he)

/-- When the page holds an entry with key ≥ `k`, the `KeyIndex` loop
stops at the first one. -/
theorem keyIndexGo_found {k : Int} :
    ∀ (es : List (Int × Nat)) (i : Nat) (e : Int × Nat),
      es.find? (fun p => decide (k ≤ p.1)) = some e →
      ∃ j, keyIndexGo k i es = i + j ∧ es.get? j = some e ∧
        ∀ n, n < j → ∃ en, es.get? n = some en ∧ en.1 < k := by
  intro es
  induction es with
  | nil => intro i e h; exact absurd h (by simp)
  | cons p rest ih =>
    intro i e h
    obtain ⟨k0, v0⟩ := p
    by_cases hk : k ≤ k0
    · rw [List.find?_cons_of_pos _ (by simpa using hk)] at h
      injection h with he
      refine ⟨0, ?_, ?_, ?_⟩
      · simp only [keyIndexGo, if_pos hk]
        omega
      · simpa using he
      · intro n hn
        omega
    · rw [List.find?_cons_of_neg _ (by simpa using hk)] at h
      obtain ⟨j, hj1, hj2, hj3⟩ := ih (i + 1) e h
      refine ⟨j + 1, ?_, ?_, ?_⟩
      · simp only [keyIndexGo, if_neg hk]
        rw [hj1]
        omega
      · simpa using hj2
      · intro n hn
        match n with
        | 0 => exact ⟨(k0, v0), rfl, lt_of_not_le hk⟩
        | n + 1 =>
          obtain ⟨en, h1, h2⟩ := hj3 n (by omega)
          exact ⟨en, by simpa using h1, h2⟩

/-- C5 (corrected): `Begin(k)` positions the iterator in the leaf the
descent for `k` reaches, at `KeyIndex(k)`: if that leaf holds an entry
with key ≥ `k`, dereferencing yields the first such entry; but when
every key of the leaf is smaller than `k`, `KeyIndex` returns 0 (not
the leaf size), so the iterator points at the leaf's FIRST entry — a
key smaller than `k` — rather than at (or advancing to) the end
sentinel as claimed. -/
theorem bpt_begin_position {t : Tree} {k : Int} {fuel : Nat} {it : Iter}
    (h : beginAt t k fuel = some it) :
    ∃ lp ln, findLeaf t k false fuel = some (lp, ln) ∧
      t.arena lp = some (.leaf ln) ∧
      it.page = lp ∧ it.idx = keyIndex k ln.entries ∧
      ((∀ e ∈ ln.entries, e.1 < k) → it.idx = 0) ∧
      ∀ e, ln.entries.find? (fun p => decide (k ≤ p.1)) = some e →
        iterDeref t it = some e ∧ k ≤ e.1 ∧
        ∀ n, n < it.idx → ∃ en, ln.entries.get? n = some en ∧ en.1 < k := by
  unfold beginAt at h
  split at h
  · exact Option.noConfusion h
  · rename_i lp ln hfl
    injection h with h1
    subst h1
    have harena := findLeafGo_mem hfl
    refine ⟨lp, ln, hfl, harena, rfl, rfl, ?_, ?_⟩
    · intro hall
      exact keyIndexGo_all_lt ln.entries 0 hall
    · intro e hfind
      obtain ⟨j, hj1, hj2, hj3⟩ := keyIndexGo_found ln.entries 0 e hfind
      have hidx : keyIndex k ln.entries = j := by
        unfold keyIndex
        omega
      refine ⟨?_, ?_, ?_⟩
      · unfold iterDeref
        dsimp only
        rw [harena, hidx]
        exact hj2
      · have := List.find?_some hfind
        simpa using this
      · intro n hn
        dsimp only at hn
        rw [hidx] at hn
        exact hj3 n hn

theorem bpt_begin_position_witness :
    ∃ lp ln, findLeaf c3t2 2 false 10 = some (lp, ln) ∧
      c3t2.arena lp = some (.leaf ln) ∧
      (⟨1, 1⟩ : Iter).page = lp ∧ (⟨1, 1⟩ : Iter).idx = keyIndex 2 ln.entries ∧
      ((∀ e ∈ ln.entries, e.1 < 2) → (⟨1, 1⟩ : Iter).idx = 0) ∧
      ∀ e, ln.entries.find? (fun p => decide (2 ≤ p.1)) = some e →
        iterDeref c3t2 ⟨1, 1⟩ = some e ∧ 2 ≤ e.1 ∧
        ∀ n, n < (⟨1, 1⟩ : Iter).idx →
          ∃ en, ln.entries.get? n = some en ∧ en.1 < 2 :=
  bpt_begin_position (show beginAt c3t2 2 10 = some ⟨1, 1⟩ from rfl)

/-- C5 counterexample: in the reachable tree `c3t2` (a single root leaf
with keys 1 and 2) every key is smaller than 5, so the claim requires
`Begin(5)` to be at (or advance directly to) the end sentinel; instead
the iterator points at slot 0 of the leaf — dereferencing yields
`(1, 10)`, whose key is smaller than 5 — and advancing moves to slot 1,
still not the end. -/
theorem bpt_begin_cex :
    beginAt c3t2 5 10 = some ⟨1, 0⟩ ∧
    c3t2.arena 1 = some (.leaf ⟨-1, -1, 3, [(1, 10), (2, 20)]⟩) ∧
    (∀ e ∈ [((1 : Int), (10 : Nat)), (2, 20)], e.1 < 5) ∧
    iterIsEnd ⟨1, 0⟩ = false ∧
    iterDeref c3t2 ⟨1, 0⟩ = some (1, 10) ∧
    iterNext c3t2 ⟨1, 0⟩ = some ⟨1, 1⟩ ∧
    iterIsEnd ⟨1, 1⟩ = false :=
  ⟨rfl, rfl, by decide, rfl, rfl, rfl, rfl⟩

/-- C9 (confirmed): whenever `GetValue` returns, it pushed exactly one
element onto the caller's result vector — the default-constructed value
when it returns false — and it unpinned the visited leaf with
`is_dirty = true` although nothing was written. -/
theorem bpt_getValue_always_appends {t : Tree} {k : Int} {fuel : Nat} {o : GetValueOut}
    (h : getValue t k fuel = some o) :
    o.appended.length = 1 ∧ (o.found = false → o.appended = [0]) ∧
    o.unpinnedLeaf.2 = true := by
  unfold getValue at h
  split at h
  · exact Option.noConfusion h
  · rename_i lp ln hfl
    injection h with h1
    subst h1
    refine ⟨rfl, ?_, rfl⟩
    intro hf
    cases hlk : leafLookup k ln.entries with
    | none => rfl
    | some v => simp [hlk] at hf

theorem bpt_getValue_always_appends_witness :
    (⟨false, [0], (1, true)⟩ : GetValueOut).appended.length = 1 ∧
    ((⟨false, [0], (1, true)⟩ : GetValueOut).found = false →
      (⟨false, [0], (1, true)⟩ : GetValueOut).appended = [0]) ∧
    (⟨false, [0], (1, true)⟩ : GetValueOut).unpinnedLeaf.2 = true :=
  bpt_getValue_always_appends
    (show getValue c3t2 5 10 = some ⟨false, [0], (1, true)⟩ from rfl)

end BPT

end Bustub
